import Mathlib

/-!
Shallow embedding of the Hex game engine (`HexGame_with_AI_bot.cpp`) and
verification of its specification claims.

The C++ source instantiates every template that matters for the game at
`numType = int`, so numeric values are embedded as `Int`.  Node indices are
C++ `int`s as well and are embedded as `Int`; reads and writes of `std::vector`
cells at an out-of-range index are undefined behaviour in C++ and are embedded
as defaulted reads / dropped writes (the proofs establish that the executions
we reason about never perform such an access).
-/

namespace HexGame

/-- Embeds `int_int_and_num_Triad<int>`: (from node, to node, cumulative cost). -/
structure Triad where
  v1 : Int
  v2 : Int
  v3 : Int
deriving DecidableEq, Repr

/-- Embeds `int_and_num_Pair<int>`: (node, cost). -/
structure IntPair where
  v1 : Int
  v2 : Int
deriving DecidableEq, Repr

/-- Embeds `bool_and_num_Pair<int>`: (present?, cost). -/
structure BoolPair where
  b : Bool
  v : Int
deriving DecidableEq, Repr

/-! ## PriorityQueue (class `PriorityQueue<numType>`), backed by a `vector` -/

/-- Embeds the scan loop of `PriorityQueue::insert`: the new element is placed
immediately before the first entry whose cost (`get_value3`) is `>=` the new
element's cost; if no such entry exists it is appended (`push_back`).  The
`queue.size()==0` early return of the source coincides with the base case. -/
def pqInsert (queue : List Triad) (ne : Triad) : List Triad :=
  match queue with
  | [] => [ne]
  | q :: rest => if q.v3 ≥ ne.v3 then ne :: q :: rest else q :: pqInsert rest ne

/-- Embeds `PriorityQueue::contains_elem_with_val1_val2`. -/
def pqContainsV1V2 (queue : List Triad) (a b : Int) : Bool :=
  queue.any (fun e => e.v1 = a ∧ e.v2 = b)

/-- Embeds `PriorityQueue::contains_elem_with_val2`. -/
def pqContainsV2 (queue : List Triad) (b : Int) : Bool :=
  queue.any (fun e => e.v2 = b)

/-- Embeds `PriorityQueue::improves_cost_of_node`: true iff no current entry
for the same destination (`get_value2`) has cost `<=` the new element's cost. -/
def pqImproves (queue : List Triad) (ne : Triad) : Bool :=
  queue.all (fun e => ¬(e.v2 = ne.v2 ∧ e.v3 ≤ ne.v3))

/-- One pass of the inner loop of `PriorityQueue::update_queue_with_shorter_path`:
erase the first entry whose destination equals `d` (the inner `for` with `break`). -/
def removeFirstWithDest (queue : List Triad) (d : Int) : List Triad :=
  match queue with
  | [] => []
  | e :: rest => if e.v2 = d then rest else e :: removeFirstWithDest rest d

/-- The outer loop of `PriorityQueue::update_queue_with_shorter_path`:
`for(i=0; i<queue.size(); ++i)` re-reads the shrinking `queue.size()` at every
step and each iteration erases (at most) the first matching entry.  `i` is the
loop counter; the fuel argument bounds the iteration count and is always called
with `queue.length`, which the loop can never exceed because `i` increases and
`queue.size()` never grows inside the loop. -/
def pqUpdateLoop (d : Int) : Nat → Nat → List Triad → List Triad
  | 0, _, q => q
  | fuel + 1, i, q =>
      if i < q.length then pqUpdateLoop d fuel (i + 1) (removeFirstWithDest q d) else q

/-- Embeds `PriorityQueue::update_queue_with_shorter_path`: run the erase loop,
then `insert` the new element. -/
def pqUpdate (queue : List Triad) (ne : Triad) : List Triad :=
  pqInsert (pqUpdateLoop ne.v2 queue.length 0 queue) ne

/-- The inner membership scan shared by `theres_any_in_queue_not_in_ref` and the
`get…first_in_queue_not_in_ref` methods: does `ref` contain an element whose
three values all coincide with `t`'s. -/
def triadInRef (t : Triad) (ref : List Triad) : Bool :=
  ref.any (fun r => r = t)

/-- Embeds `PriorityQueue::theres_any_in_queue_not_in_ref`.  The flag
`condition` starts `true`, is set to `false` as soon as some queue element is
found in `ref`, and both loops then break, so the method returns `true` iff no
element of the queue occurs in `ref` (and `true` when the queue is empty; the
`queue.size()>0 && ref_queue.size()==0` early return agrees with this). -/
def pqTheresAnyNotInRef (queue ref : List Triad) : Bool :=
  !(queue.any (fun e => triadInRef e ref))

/-- The loop of `PriorityQueue::get_first_in_queue_not_in_ref_NotDelete` with
its `aux` flag, which the source never resets between outer iterations: once
an element is found in `ref` the flag stays `true` for every later element. -/
def pqGetFirstLoop : List Triad → List Triad → Bool → Triad
  | [], _, _ => ⟨-1, -1, -1⟩
  | e :: rest, ref, aux =>
      let aux2 := aux || triadInRef e ref
      if aux2 = false then e else pqGetFirstLoop rest ref aux2

/-- Embeds `PriorityQueue::get_first_in_queue_not_in_ref_NotDelete` (including
the `queue.size()>0 && ref_queue.size()==0` early return of `queue[0]` and the
`(-1,-1,-1)` fall-through). -/
def pqGetFirstNotInRef (queue ref : List Triad) : Triad :=
  if queue.length > 0 ∧ ref.length = 0 then queue.headD ⟨-1, -1, -1⟩
  else pqGetFirstLoop queue ref false

/-- The loop of `PriorityQueue::getAndDelete_first_in_queue_not_in_ref`, with
the same persistent `aux` flag; returns the selected element (or the sentinel)
together with the queue after the erase. -/
def pqGetAndDeleteLoop : List Triad → List Triad → Bool → Triad × List Triad
  | [], _, _ => (⟨-1, -1, -1⟩, [])
  | e :: rest, ref, aux =>
      let aux2 := aux || triadInRef e ref
      if aux2 = false then (e, rest)
      else
        let p := pqGetAndDeleteLoop rest ref aux2
        (p.1, e :: p.2)

/-- Embeds `PriorityQueue::getAndDelete_first_in_queue_not_in_ref`. -/
def pqGetAndDeleteNotInRef (queue ref : List Triad) : Triad × List Triad :=
  if queue.length > 0 ∧ ref.length = 0 then (queue.headD ⟨-1, -1, -1⟩, queue.tail)
  else pqGetAndDeleteLoop queue ref false

/-! ## Indexed `vector` access

C++ `std::vector` subscripts appearing in the source use `int` indices; an
out-of-range subscript is undefined behaviour, embedded as a defaulted read
(`getAtI`) or a dropped write (`setAtI`). -/

/-- Read `l[i]` with default `d` (out-of-range or negative reads default). -/
def getAtI {α : Type} (l : List α) (i : Int) (d : α) : α :=
  if 0 ≤ i then l.getD i.toNat d else d

/-- Write `l[i] := a` (out-of-range or negative writes are dropped). -/
def setAtI {α : Type} (l : List α) (i : Int) (a : α) : List α :=
  if 0 ≤ i then l.set i.toNat a else l

/-! ## The graph data (class `Graph<int>` member state) -/

/-- The member state of `Graph<int>` (and of its derived classes
`undirected_Graph<int>` / `Hex_Board`, whose extra members `density` and
`border_length` play no role in the embedded operations and are carried
separately where needed). -/
structure EmbGraph where
  size : Nat
  connectivityMatrix : List (List BoolPair)
  edgeList : List (List IntPair)
  nodeValues : List Int
  nodeTags : List Int
  conMatrix_was_computed : Bool
  edgeList_was_computed : Bool
deriving DecidableEq, Repr

namespace EmbGraph

/-- Embeds `Graph::V`. -/
def V (g : EmbGraph) : Nat := g.size

/-- Embeds `Graph::get_node_tag`. -/
def get_node_tag (g : EmbGraph) (i : Int) : Int :=
  getAtI g.nodeTags i 0

/-- Embeds `Graph::set_node_tag` (initialising the tag vector to zeros first
when it is still empty, as the source does). -/
def set_node_tag (g : EmbGraph) (node : Int) (val : Int) : EmbGraph :=
  let tags := if g.nodeTags.length = 0 then List.replicate g.size 0 else g.nodeTags
  { g with nodeTags := setAtI tags node val }

/-- Embeds `Graph::set_node_value` (same empty-vector initialisation). -/
def set_node_value (g : EmbGraph) (node : Int) (val : Int) : EmbGraph :=
  let vals := if g.nodeValues.length = 0 then List.replicate g.size 0 else g.nodeValues
  { g with nodeValues := setAtI vals node val }

/-- Embeds `Graph::neighbors`: the edge-list branch returns `edgeList[nodeFrom]`;
the matrix branch collects, in increasing column order, the columns whose
entry is set, paired with the stored cost; with neither representation the
method prints and returns an empty vector. -/
def neighbors (g : EmbGraph) (nodeFrom : Int) : List IntPair :=
  if g.edgeList_was_computed then getAtI g.edgeList nodeFrom []
  else if g.conMatrix_was_computed then
    (List.range g.size).filterMap (fun j =>
      let c := getAtI (getAtI g.connectivityMatrix nodeFrom []) (Int.ofNat j) ⟨false, 0⟩
      if c.b then some ⟨Int.ofNat j, c.v⟩ else none)
  else []

/-- Embeds `Graph::adjacent`. -/
def adjacent (g : EmbGraph) (nodeFrom nodeTo : Int) : Bool :=
  if g.edgeList_was_computed then
    (getAtI g.edgeList nodeFrom []).any (fun e => e.v1 = nodeTo)
  else if g.conMatrix_was_computed then
    (getAtI (getAtI g.connectivityMatrix nodeFrom []) nodeTo ⟨false, 0⟩).b
  else false

/-- Embeds `Graph::get_edge_value`: in the edge-list branch the scan returns
the cost of the first matching entry and falls through to `return costVal`
(which is still `0`) after printing when no entry matches; in the matrix
branch a missing edge prints and returns `0`; with no representation it
prints and returns `0`. -/
def get_edge_value (g : EmbGraph) (nodeFrom nodeTo : Int) : Int :=
  if g.edgeList_was_computed then
    match (getAtI g.edgeList nodeFrom []).find? (fun e => e.v1 = nodeTo) with
    | some e => e.v2
    | none => 0
  else if g.conMatrix_was_computed then
    let c := getAtI (getAtI g.connectivityMatrix nodeFrom []) nodeTo ⟨false, 0⟩
    if c.b then c.v else 0
  else 0

/-- Embeds the matrix-rebuilding core of `Graph::generate_conMatrix_from_edgeList`:
reset the matrix to an all-`(false,0)` `size × size` grid, then for each row `i`
in order and each entry `(auxIndex, costAux)` of `edgeList[i]` in order, write
`connectivityMatrix[i][auxIndex] = (true, costAux)`. -/
def conMatrixFromEdgeList (size : Nat) (el : List (List IntPair)) : List (List BoolPair) :=
  (List.range size).foldl
    (fun m i =>
      (getAtI el (Int.ofNat i) []).foldl
        (fun m2 e => setAtI m2 (Int.ofNat i) (setAtI (getAtI m2 (Int.ofNat i) []) e.v1 ⟨true, e.v2⟩))
        m)
    (List.replicate size (List.replicate size ⟨false, 0⟩))

/-- Embeds `Graph::generate_conMatrix_from_edgeList` (no-op apart from a
console message when the edge list has not been computed). -/
def generate_conMatrix_from_edgeList (g : EmbGraph) : EmbGraph :=
  if g.edgeList_was_computed then
    { g with connectivityMatrix := conMatrixFromEdgeList g.size g.edgeList
             conMatrix_was_computed := true }
  else g

/-- Embeds the list-rebuilding core of `Graph::generate_edgeList_from_conMatrix`:
for each row `i`, collect `(j, cost)` for every column `j` in increasing order
whose matrix entry is set. -/
def edgeListFromConMatrix (size : Nat) (m : List (List BoolPair)) : List (List IntPair) :=
  (List.range size).map (fun i =>
    (List.range size).filterMap (fun j =>
      let c := getAtI (getAtI m (Int.ofNat i) []) (Int.ofNat j) ⟨false, 0⟩
      if c.b then some ⟨Int.ofNat j, c.v⟩ else none))

/-- Embeds `Graph::generate_edgeList_from_conMatrix` (no-op apart from a
console message when the matrix has not been computed). -/
def generate_edgeList_from_conMatrix (g : EmbGraph) : EmbGraph :=
  if g.conMatrix_was_computed then
    { g with edgeList := edgeListFromConMatrix g.size g.connectivityMatrix
             edgeList_was_computed := true }
  else g

end EmbGraph

/-! ## Hex board construction (`Hex_Board::generate_graph_matrixMode`) -/

/-- The neighbour indices written for a given `node` by the nine-way
corner/edge/interior case analysis of `Hex_Board::generate_graph_matrixMode`,
with `x = node / border_length` and `y = node % border_length`; each listed
value is the `temp_nodeFrom` of one write
`connectivityMatrix[temp_nodeFrom][node].set_pair(true, cost)`, in source order. -/
def hexCaseNeighbors (L : Nat) (node : Nat) : List Nat :=
  let x := node / L
  let y := node % L
  if x = 0 ∧ y = 0 then
    [x * L + (y + 1), (x + 1) * L + y]
  else if x = L - 1 ∧ y = L - 1 then
    [(x - 1) * L + y, x * L + (y - 1)]
  else if x = L - 1 ∧ y = 0 then
    [(x - 1) * L + y, (x - 1) * L + (y + 1), x * L + (y + 1)]
  else if x = 0 ∧ y = L - 1 then
    [x * L + (y - 1), (x + 1) * L + (y - 1), (x + 1) * L + y]
  else if x = 0 then
    [x * L + (y - 1), x * L + (y + 1), (x + 1) * L + (y - 1), (x + 1) * L + y]
  else if x = L - 1 then
    [(x - 1) * L + y, (x - 1) * L + (y + 1), x * L + (y - 1), x * L + (y + 1)]
  else if y = 0 then
    [(x - 1) * L + y, (x - 1) * L + (y + 1), x * L + (y + 1), (x + 1) * L + y]
  else if y = L - 1 then
    [(x - 1) * L + y, x * L + (y - 1), (x + 1) * L + (y - 1), (x + 1) * L + y]
  else
    [(x - 1) * L + y, (x - 1) * L + (y + 1), x * L + (y - 1), x * L + (y + 1),
     (x + 1) * L + (y - 1), (x + 1) * L + y]

/-- The full sequence of `(temp_nodeFrom, node)` matrix writes performed by the
`for(node=0; node<size; ++node)` loop of `generate_graph_matrixMode` (all of
them store `(true, 1)`, since `cost` is the constant `1`). -/
def hexWrites (L : Nat) : List (Nat × Nat) :=
  (List.range (L * L)).flatMap (fun node => (hexCaseNeighbors L node).map (fun t => (t, node)))

/-- Write `(true, 1)` into cell `(w.1, w.2)` of the matrix. -/
def hexApplyWrite (m : List (List BoolPair)) (w : Nat × Nat) : List (List BoolPair) :=
  setAtI m (Int.ofNat w.1) (setAtI (getAtI m (Int.ofNat w.1) []) (Int.ofNat w.2) ⟨true, 1⟩)

/-- Embeds `Hex_Board::generate_graph_matrixMode`: initialise an all-zero
`L² × L²` matrix, then perform the case-analysis writes node by node. -/
def hexConMatrix (L : Nat) : List (List BoolPair) :=
  (hexWrites L).foldl hexApplyWrite
    (List.replicate (L * L) (List.replicate (L * L) ⟨false, 0⟩))

/-- A `Hex_Board` of border length `L` whose per-node owner tags are `tags`:
the special `undirected_Graph` constructor used by `Hex_Board` initialises
`nodeValues` and `nodeTags` to zeros, and `generate_blank_connected_board`
builds the connectivity matrix only (the default representation mode is
`CON_MATRIX`, so `edgeList_was_computed` stays false).  Game play then only
rewrites tags, so an arbitrary reachable board is this graph with `tags`
substituted for the zero vector. -/
def hexBoard (L : Nat) (tags : List Int) : EmbGraph :=
  { size := L * L
    connectivityMatrix := hexConMatrix L
    edgeList := []
    nodeValues := List.replicate (L * L) 0
    nodeTags := tags
    conMatrix_was_computed := true
    edgeList_was_computed := false }

/-- A freshly constructed blank board (all tags zero). -/
def hexBoardBlank (L : Nat) : EmbGraph :=
  hexBoard L (List.replicate (L * L) 0)

/-- Embeds `Hex_Board::coordinate_to_nodeIndex` (in-range coordinates only;
the out-of-range branch returns the sentinel `-999`). -/
def coordinate_to_nodeIndex (L : Nat) (x y : Int) : Int :=
  if x < 0 ∨ x > (L : Int) - 1 ∨ y < 0 ∨ y > (L : Int) - 1 then -999
  else x * L + y

/-! ## ShortestPath (class `ShortestPath<Hex_Board, int>`) -/

/-- Largest `int`: `numeric_limits<int>::infinity()` is `0` for `int`, so the
source's `infinity()>max() ? infinity() : max()` selects
`numeric_limits<int>::max()`. -/
def intMax : Int := 2147483647

/-- The member state of a `ShortestPath<Hex_Board,int>` object (the graph
reference is carried separately). -/
structure SPState where
  nodeFrom : Int
  nodeTo : Int
  currentNode : Int
  terminated : Bool
  path_was_seeked : Bool
  path_exists : Bool
  nodeTo_was_visited : Bool
  open_set : List Int
  closed_set : List Int
  tentative_costs : List Int
  neighbors : List IntPair
  queue : List Triad
  last_top_of_queue : Triad
  used_queue_elements : List Triad
  shortest_path : List IntPair
  shortest_path_cost : Int
  raw_shortest_path : List Triad
deriving DecidableEq, Repr

/-- Embeds `Graph::neighbors` as invoked through the non-`const` reference the
`ShortestPath` object holds: the method reads the representation flags and the
stored representation but performs no member write in any branch, so the graph
it leaves behind is returned alongside the neighbour list. -/
def EmbGraph.neighbors_run (g : EmbGraph) (nodeFrom : Int) : List IntPair × EmbGraph :=
  if g.edgeList_was_computed then (getAtI g.edgeList nodeFrom [], g)
  else if g.conMatrix_was_computed then
    ((List.range g.size).filterMap (fun j =>
      let c := getAtI (getAtI g.connectivityMatrix nodeFrom []) (Int.ofNat j) ⟨false, 0⟩
      if c.b then some ⟨Int.ofNat j, c.v⟩ else none), g)
  else ([], g)

/-- Embeds the banned-node marking loop of `seek_path`: every node whose tag
occurs in `avoid_nodes_with_these_tags` is collected, in increasing index
order. -/
def bannedNodes (g : EmbGraph) (avoidTags : List Int) : List Int :=
  ((List.range g.V).map (fun i => (Int.ofNat i))).filter
    (fun i => avoidTags.any (fun b => EmbGraph.get_node_tag g i = b))

/-- Embeds the open-set erase of the `seek_path` main loop: scan `open_set`,
erase the first element equal to `cur` and `push_back` it onto `closed_set`,
doing nothing when no element matches. -/
def eraseFirstMove : List Int → Int → List Int → List Int × List Int
  | [], _, closed => ([], closed)
  | o :: rest, cur, closed =>
      if o = cur then (rest, closed ++ [cur])
      else
        let p := eraseFirstMove rest cur closed
        (o :: p.1, p.2)

/-- Embeds the neighbour-relaxation loop at the top of each `seek_path`
iteration: for each neighbour that is in the open set and not banned, build the
triad `(currentNode, neighbour, edge cost + tentative_costs[currentNode])` and,
when the queue has no entry with the same (from,to) and the triad improves on
every entry for the same destination, run `update_queue_with_shorter_path`. -/
def expandFold (banned open_set : List Int) (cur : Int) (tent : List Int)
    (nbrs : List IntPair) (q0 : List Triad) : List Triad :=
  nbrs.foldl
    (fun q nb =>
      if open_set.contains nb.v1 ∧ ¬ banned.contains nb.v1 then
        let triad : Triad := ⟨cur, nb.v1, nb.v2 + getAtI tent cur 0⟩
        if ¬ pqContainsV1V2 q triad.v1 triad.v2 ∧ pqImproves q triad then pqUpdate q triad
        else q
      else q)
    q0

/-- One iteration of the `while(terminated == false)` loop of
`ShortestPath::seek_path` (lines 1351-1438 of the source), returning the
updated object state together with the graph left behind by the
`graph.neighbors(currentNode)` call. -/
def seekStep (g : EmbGraph) (banned : List Int) (st : SPState) : SPState × EmbGraph :=
  let nr := EmbGraph.neighbors_run g st.currentNode
  let q1 := expandFold banned st.open_set st.currentNode st.tentative_costs nr.1 st.queue
  let st1 := { st with neighbors := nr.1, queue := q1 }
  if q1.length > 0 ∧ pqTheresAnyNotInRef q1 st.used_queue_elements = true then
    let auxTop := pqGetFirstNotInRef q1 st.used_queue_elements
    if auxTop.v2 ≠ st.nodeTo then
      let gd := pqGetAndDeleteNotInRef q1 st.used_queue_elements
      let oc := eraseFirstMove st1.open_set gd.1.v2 st1.closed_set
      ({ st1 with queue := gd.2
                  used_queue_elements := st.used_queue_elements ++ [gd.1]
                  last_top_of_queue := gd.1
                  currentNode := gd.1.v2
                  open_set := oc.1
                  closed_set := oc.2
                  tentative_costs := setAtI st1.tentative_costs gd.1.v2 gd.1.v3 }, nr.2)
    else
      let el := pqGetFirstNotInRef q1 st.used_queue_elements
      let used2 := st.used_queue_elements ++ [el]
      let st2 := { st1 with nodeTo_was_visited := true
                            used_queue_elements := used2
                            last_top_of_queue := el
                            tentative_costs := setAtI st1.tentative_costs st.currentNode el.v3 }
      if q1.length > 0 ∧ pqTheresAnyNotInRef q1 used2 = true then
        ({ st2 with currentNode := (pqGetFirstNotInRef q1 used2).v1 }, nr.2)
      else
        ({ st2 with terminated := true, path_exists := true }, nr.2)
  else
    ({ st1 with terminated := true, path_exists := st.nodeTo_was_visited }, nr.2)

/-- The fuel-bounded main loop: the source's `while` runs until `terminated`;
every iteration either terminates or moves one node from the open set to the
closed set, so `open_set.length + 1` iterations always suffice (proved below)
and exhausting the fuel — which never happens at the call sites — returns the
state reached so far. -/
def seekLoop (banned : List Int) : Nat → EmbGraph → SPState → SPState × EmbGraph
  | 0, g, st => (st, g)
  | fuel + 1, g, st =>
      if st.terminated = true then (st, g)
      else
        let p := seekStep g banned st
        seekLoop banned fuel p.2 p.1

/-- The state a fresh `ShortestPath` object is in when `seek_path(nf, nt, …)`
reaches the banned-endpoint fail-fast return: `nodeFrom`/`nodeTo` assigned,
`terminated` and `path_was_seeked` set, `path_exists` false, all containers
still empty, `shortest_path_cost` still at its constructor value. -/
def failFastState (nf nt : Int) : SPState :=
  { nodeFrom := nf, nodeTo := nt, currentNode := 0, terminated := true
    path_was_seeked := true, path_exists := false, nodeTo_was_visited := false
    open_set := [], closed_set := [], tentative_costs := [], neighbors := []
    queue := [], last_top_of_queue := ⟨0, 0, 0⟩, used_queue_elements := []
    shortest_path := [], shortest_path_cost := intMax, raw_shortest_path := [] }

/-- The search phase of `ShortestPath::seek_path` (lines 1276-1439): the
clearing branch for a reused object resets every member the search reads, so
the embedding always starts from the fresh state; the banned-node marking,
fail-fast check, open/closed/tentative initialisation and the main loop follow
the source, and `path_was_seeked` is set at the end. -/
def seek_search (g : EmbGraph) (nf nt : Int) (avoidTags : List Int) : SPState × EmbGraph :=
  let banned := bannedNodes g avoidTags
  if banned.any (fun n => n = nf ∨ n = nt) then (failFastState nf nt, g)
  else
    let rangeInts := (List.range g.V).map (fun i => (Int.ofNat i))
    let st0 : SPState :=
      { nodeFrom := nf, nodeTo := nt, currentNode := nf, terminated := false
        path_was_seeked := false, path_exists := false, nodeTo_was_visited := false
        open_set := rangeInts.filter (fun i => ¬ banned.contains i ∧ i ≠ nf)
        closed_set := rangeInts.filter (fun i => ¬ banned.contains i ∧ i = nf)
        tentative_costs := (List.range g.V).map (fun i => if (Int.ofNat i) ≠ nf then intMax else 0)
        neighbors := [], queue := [], last_top_of_queue := ⟨0, 0, 0⟩
        used_queue_elements := [], shortest_path := [], shortest_path_cost := intMax
        raw_shortest_path := [] }
    let p := seekLoop banned (g.V + 2) g st0
    ({ p.1 with path_was_seeked := true }, p.2)

/-- Embeds `ShortestPath::get_path_exists`. -/
def get_path_exists (st : SPState) : Bool := st.path_exists

/-! ## Path reconstruction (`ShortestPath::reproduce_found_path`) -/

/-- Embeds the `elements_of_each_destination_node` construction: one
`PriorityQueue` per node index, receiving (via `insert`) the used queue
elements whose destination is that index, in their order in
`used_queue_elements`. -/
def elementsPerDest (V : Nat) (used : List Triad) : List (List Triad) :=
  (List.range V).map (fun i =>
    used.foldl (fun q e => if e.v2 = (Int.ofNat i : Int) then pqInsert q e else q) [])

/-- Embeds the backward walk of `reproduce_found_path`: while the current node
differs from `nodeFrom`, read the top (`get_top_NotDelete`, i.e. `queue[0]`) of
the current node's per-destination queue, prepend it to the raw path, and move
to its origin.  Reading `queue[0]` of an empty queue is undefined behaviour in
C++ and the walk would then never reach `nodeFrom`; the fuel models this: a
run that exhausts it yields `none` (proved unreachable below). -/
def reproduceWalk (elems : List (List Triad)) (nf : Int) :
    Nat → Int → List Triad → Option (List Triad)
  | 0, cn, acc => if cn = nf then some acc else none
  | fuel + 1, cn, acc =>
      if cn = nf then some acc
      else
        let rawAux := (getAtI elems cn []).headD ⟨-1, -1, -1⟩
        reproduceWalk elems nf fuel rawAux.v1 (rawAux :: acc)

/-- Embeds the cost-difference pass of `reproduce_found_path`: walk the raw
path in order, emitting `(node, cumulative − previous)` pairs; the final
`previous` value is stored as `shortest_path_cost`. -/
def buildSteps (raw : List Triad) : List IntPair × Int :=
  raw.foldl (fun acc t => (acc.1 ++ [⟨t.v2, t.v3 - acc.2⟩], t.v3)) ([], 0)

/-- Embeds `ShortestPath::reproduce_found_path` on a post-search state. -/
def reproduce_found_path (V : Nat) (st : SPState) : Option SPState :=
  let elems := elementsPerDest V st.used_queue_elements
  match reproduceWalk elems st.nodeFrom (V + 2) st.nodeTo [] with
  | none => none
  | some raw =>
      some { st with raw_shortest_path := raw
                     shortest_path := (buildSteps raw).1
                     shortest_path_cost := (buildSteps raw).2
                     currentNode := st.nodeFrom }

/-- Embeds the whole of `ShortestPath::seek_path`: the search phase followed,
when a path was found, by `reproduce_found_path`.  A `none` first component
models the (unreachable) undefined behaviour of the reconstruction walk. -/
def seek_path (g : EmbGraph) (nf nt : Int) (avoidTags : List Int) :
    Option SPState × EmbGraph :=
  let p := seek_search g nf nt avoidTags
  if p.1.path_exists then
    match reproduce_found_path g.V p.1 with
    | none => (none, p.2)
    | some st => (some st, p.2)
  else (some p.1, p.2)

/-! ## Win checks (`Hex_Game::check_connection_vertical`,
`check_connection_lateral`, `check_bot_won`) -/

/-- The double border loop shared by the three win checks: scan the
(source, target) pairs in loop order, calling `seek_path` on the same
`ShortestPath` object (whose reset makes every call independent) and stopping
at the first success.  A `none` from `seek_path` models the undefined
reconstruction walk and makes the check abort with `false` (unreachable). -/
def checkPairsRun (avoidTags : List Int) (pairs : List (Int × Int)) (g : EmbGraph) :
    Bool × EmbGraph :=
  pairs.foldl
    (fun acc p =>
      if acc.1 then acc
      else
        match seek_path acc.2 p.1 p.2 avoidTags with
        | (some st, g2) => (get_path_exists st, g2)
        | (none, g2) => (false, g2))
    (false, g)

/-- Embeds `Hex_Game::check_connection_vertical`: bans tags `0` and `2`, scans
all (north-border, south-border) pairs `(0,n) → (L-1,s)` in loop order. -/
def check_connection_vertical (L : Nat) (g : EmbGraph) : Bool × EmbGraph :=
  checkPairsRun [0, 2]
    ((List.range L).flatMap (fun n =>
      (List.range L).map (fun s =>
        (coordinate_to_nodeIndex L 0 (Int.ofNat n),
         coordinate_to_nodeIndex L ((L : Int) - 1) (Int.ofNat s)))))
    g

/-- Embeds `Hex_Game::check_connection_lateral` (and `check_bot_won`, which is
the same computation on an explicitly passed board): bans tags `0` and `1`,
scans all (west-border, east-border) pairs `(w,0) → (e,L-1)` in loop order. -/
def check_connection_lateral (L : Nat) (g : EmbGraph) : Bool × EmbGraph :=
  checkPairsRun [0, 1]
    ((List.range L).flatMap (fun w =>
      (List.range L).map (fun e =>
        (coordinate_to_nodeIndex L (Int.ofNat w) 0,
         coordinate_to_nodeIndex L (Int.ofNat e) ((L : Int) - 1)))))
    g

/-! ## Reachability and breadth-first search (the spec-side comparison point) -/

/-- A step along a stored edge: `v` occurs in the neighbour list of `u`. -/
def edgeTo (g : EmbGraph) (u v : Int) : Prop :=
  ∃ c : Int, (⟨v, c⟩ : IntPair) ∈ EmbGraph.neighbors g u

/-- Reachability from `s` inside the subgraph of non-banned nodes: the source
itself must be non-banned, and every step moves along a stored edge to a
non-banned node. -/
inductive ReachAvoid (g : EmbGraph) (B : List Int) (s : Int) : Int → Prop
  | refl : ¬ s ∈ B → ReachAvoid g B s s
  | step {u v : Int} : ReachAvoid g B s u → edgeTo g u v → ¬ v ∈ B →
      ReachAvoid g B s v

/-- Modelled from the spec: one round of a plain breadth-first search
restricted to non-banned nodes — append to the visited list (in first-found
order) every not-yet-visited, non-banned node adjacent to a visited node. -/
def bfsRound (g : EmbGraph) (B : List Int) (visited : List Int) : List Int :=
  visited ++
    (((visited.flatMap (fun u => (EmbGraph.neighbors g u).map (fun p => p.v1))).filter
      (fun w => ¬ w ∈ visited ∧ ¬ w ∈ B)).dedup)

/-- Modelled from the spec: the visited list after `n` breadth-first rounds
from source `s`. -/
def bfsIter (g : EmbGraph) (B : List Int) (s : Int) : Nat → List Int
  | 0 => [s]
  | n + 1 => bfsRound g B (bfsIter g B s n)

/-- Modelled from the spec: a plain breadth-first search restricted to
non-banned nodes reaches `t` from `s` — `g.V` rounds always reach the
fixpoint of `bfsRound`. -/
def bfsReachable (g : EmbGraph) (B : List Int) (s t : Int) : Bool :=
  if s ∈ B then false else t ∈ bfsIter g B s g.V

/-! ## Bot move selection (`Hex_Game::game_loop`, lines 1996-2010)

The C++ win ratios are `double`s of the form wins / rollouts; they are
embedded as exact rationals, which carries the comparison logic of the
selection code unchanged. -/

/-- Embeds the maximum scan over `nodes_and_ratios`: start from entry `0`,
replace the running best only on a strictly greater ratio (`>` in the source),
so equal-ratio candidates keep the earliest one.  The `nodes_and_ratios[0]`
read of an empty vector is undefined behaviour in C++; the embedding returns
`(0, 0)` there and every theorem assumes a non-empty candidate list. -/
def chooseBest : List (Int × ℚ) → Int × ℚ
  | [] => (0, 0)
  | h :: t => t.foldl (fun best p => if p.2 > best.2 then p else best) h

/-- Embeds the swap decision that follows the scan: the swap candidate (worth
`ratioSwap`, placing on player 1's first move) is taken exactly when the swap
rule is active and its ratio is strictly greater than the scanned maximum;
otherwise the scanned candidate is kept.  Returns the chosen (node, ratio) and
whether swap was used. -/
def selectBotMove (swapRule : Bool) (ratioSwap : ℚ) (p1first : Int)
    (l : List (Int × ℚ)) : (Int × ℚ) × Bool :=
  let best := chooseBest l
  if swapRule = true ∧ ratioSwap > best.2 then ((p1first, ratioSwap), true)
  else (best, false)

/-! ## Invariants of the `seek_path` main loop (used by the proofs below) -/

/-- At most one queue entry per destination. -/
def destUnique (q : List Triad) : Prop :=
  q.Pairwise (fun a b => a.v2 ≠ b.v2)

/-- Well-formed neighbour lists: every listed neighbour index is a node. -/
def WFNbrs (g : EmbGraph) : Prop :=
  ∀ u : Int, ∀ p ∈ EmbGraph.neighbors g u, 0 ≤ p.v1 ∧ p.v1 < (g.V : Int)

/-- The invariant holding at the top of every iteration of the `seek_path`
while-loop searching from `s` to `t` with banned nodes `B`. -/
def SeekInv (g : EmbGraph) (B : List Int) (s t : Int) (st : SPState) : Prop :=
  st.nodeFrom = s ∧
  st.nodeTo = t ∧
  st.terminated = false ∧
  st.path_exists = false ∧
  st.nodeTo_was_visited = false ∧
  st.currentNode ∈ st.closed_set ∧
  s ∈ st.closed_set ∧
  (s ≠ t → ¬ t ∈ st.closed_set) ∧
  (∀ v ∈ st.open_set, 0 ≤ v ∧ v < (g.V : Int) ∧ ¬ v ∈ B ∧ v ≠ s) ∧
  st.open_set.Nodup ∧
  (∀ v ∈ st.open_set, ¬ v ∈ st.closed_set) ∧
  st.closed_set.Nodup ∧
  (∀ v ∈ st.closed_set, 0 ≤ v ∧ v < (g.V : Int)) ∧
  (∀ v ∈ st.closed_set, ReachAvoid g B s v) ∧
  (∀ v : Int, 0 ≤ v → v < (g.V : Int) → ¬ v ∈ B → v ∈ st.open_set ∨ v ∈ st.closed_set) ∧
  (∀ e ∈ st.queue, e.v1 ∈ st.closed_set ∧ edgeTo g e.v1 e.v2 ∧ e.v2 ∈ st.open_set) ∧
  destUnique st.queue ∧
  (∀ x ∈ st.used_queue_elements, ¬ x ∈ st.queue) ∧
  (∀ x ∈ st.used_queue_elements,
    x.v1 ∈ st.closed_set ∧
    (x.v2 ≠ t →
      x.v2 ∈ st.closed_set ∧ st.closed_set.indexOf x.v1 < st.closed_set.indexOf x.v2)) ∧
  (∀ v ∈ st.closed_set, v ≠ s → ∃ x ∈ st.used_queue_elements, x.v2 = v) ∧
  (∀ u ∈ st.closed_set, u ≠ st.currentNode →
    ∀ p ∈ EmbGraph.neighbors g u, ¬ p.v1 ∈ B →
      p.v1 ∈ st.closed_set ∨ ∃ e ∈ st.queue, e.v2 = p.v1) ∧
  (∀ x ∈ st.used_queue_elements, x.v2 ≠ t)

/-- What holds of the state `seek_path`'s loop terminates in (searching `s` to
`t` under banned set `B`): enough to settle reachability and to run the path
reconstruction. -/
def SeekDone (g : EmbGraph) (B : List Int) (s t : Int) (st : SPState) : Prop :=
  st.nodeFrom = s ∧
  st.nodeTo = t ∧
  st.terminated = true ∧
  (st.path_exists = true → ReachAvoid g B s t) ∧
  (st.path_exists = false → s ≠ t → ¬ ReachAvoid g B s t) ∧
  (s = t → st.path_exists = false) ∧
  s ∈ st.closed_set ∧
  (s ≠ t → ¬ t ∈ st.closed_set) ∧
  st.closed_set.Nodup ∧
  (∀ v ∈ st.closed_set, 0 ≤ v ∧ v < (g.V : Int)) ∧
  (∀ x ∈ st.used_queue_elements,
    x.v1 ∈ st.closed_set ∧
    (x.v2 ≠ t →
      x.v2 ∈ st.closed_set ∧ st.closed_set.indexOf x.v1 < st.closed_set.indexOf x.v2)) ∧
  (∀ v ∈ st.closed_set, v ≠ s → ∃ x ∈ st.used_queue_elements, x.v2 = v) ∧
  (st.path_exists = true → ∃ x ∈ st.used_queue_elements, x.v2 = t)

/-! ## Further spec-side notions used in claim statements -/

/-- The six coordinate offsets of the hex adjacency (row, column), as listed in
the spec: (row-1,col), (row-1,col+1), (row,col-1), (row,col+1), (row+1,col-1),
(row+1,col). -/
def hexOffsets : List (Int × Int) :=
  [(-1, 0), (-1, 1), (0, -1), (0, 1), (1, -1), (1, 0)]

/-- A pair of nodes of an `L × L` board joined by one hex-adjacency step (both
in range, coordinates differing by one of the six offsets). -/
def hexAdjacentIdx (L : Nat) (a b : Nat) : Prop :=
  a < L * L ∧ b < L * L ∧
    (((a / L : Nat) : Int) - ((b / L : Nat) : Int),
      ((a % L : Nat) : Int) - ((b % L : Nat) : Int)) ∈ hexOffsets

/-- A connection for the player owning tag `p`: a walk along board edges that
stays on cells tagged `p` only (including both endpoints). -/
inductive OwnerReach (g : EmbGraph) (p : Int) : Int → Int → Prop
  | refl {v : Int} : EmbGraph.get_node_tag g v = p → OwnerReach g p v v
  | step {u w x : Int} : OwnerReach g p u w → edgeTo g w x →
      EmbGraph.get_node_tag g x = p → OwnerReach g p u x

/-- A two-node graph, edge-list representation, with no edges at all. -/
def c6GraphNoEdge : EmbGraph :=
  { size := 2, connectivityMatrix := [], edgeList := [[], []]
    nodeValues := [0, 0], nodeTags := [0, 0]
    conMatrix_was_computed := false, edgeList_was_computed := true }

/-- A two-node graph, edge-list representation, whose single undirected edge
`0 — 1` has cost `0`. -/
def c6GraphZeroEdge : EmbGraph :=
  { size := 2, connectivityMatrix := [], edgeList := [[⟨1, 0⟩], [⟨0, 0⟩]]
    nodeValues := [0, 0], nodeTags := [0, 0]
    conMatrix_was_computed := false, edgeList_was_computed := true }

/-- A two-node graph in edge-list representation with one undirected edge of
cost `7`, used to witness the representation round trip. -/
def c8SampleGraph : EmbGraph :=
  { size := 2, connectivityMatrix := [], edgeList := [[⟨1, 7⟩], [⟨0, 7⟩]]
    nodeValues := [0, 0], nodeTags := [0, 0]
    conMatrix_was_computed := false, edgeList_was_computed := true }

/-- The accumulated effect on one matrix row of the writes generated by one
edge-list row  (the inner loop of `generate_conMatrix_from_edgeList`). -/
def rowFold (entries : List IntPair) (row : List BoolPair) : List BoolPair :=
  entries.foldl (fun r e => setAtI r e.v1 ⟨true, e.v2⟩) row

/-- The matrix after the first `k` outer iterations of
`generate_conMatrix_from_edgeList`. -/
def conMatrixPrefix (size : Nat) (el : List (List IntPair)) (k : Nat) : List (List BoolPair) :=
  (List.range k).foldl
    (fun m i =>
      (getAtI el (Int.ofNat i) []).foldl
        (fun m2 e => setAtI m2 (Int.ofNat i) (setAtI (getAtI m2 (Int.ofNat i) []) e.v1 ⟨true, e.v2⟩))
        m)
    (List.replicate size (List.replicate size ⟨false, 0⟩))

/-! # Theorems -/

/-! ## Indexed access lemmas -/

theorem getAtI_ofNat {α : Type} (l : List α) (n : Nat) (d : α) :
    getAtI l (Int.ofNat n) d = l.getD n d := by
  simp [getAtI]

theorem setAtI_length {α : Type} (l : List α) (i : Int) (a : α) :
    (setAtI l i a).length = l.length := by
  unfold setAtI
  split <;> simp

theorem getAtI_setAtI_self {α : Type} (l : List α) (i : Int) (a d : α)
    (h0 : 0 ≤ i) (h : i.toNat < l.length) : getAtI (setAtI l i a) i d = a := by
  simp [getAtI, setAtI, h0, List.getD, List.getElem?_set_eq_of_lt _ h]

theorem getAtI_setAtI_ne {α : Type} (l : List α) (i j : Int) (a d : α) (h : i ≠ j) :
    getAtI (setAtI l i a) j d = getAtI l j d := by
  unfold getAtI setAtI
  by_cases hi : 0 ≤ i
  · by_cases hj : 0 ≤ j
    · have hne : i.toNat ≠ j.toNat := fun hc => h (by omega)
      simp [hi, hj, List.getD, List.getElem?_set_ne hne]
    · simp [hi, hj]
  · simp [hi]

theorem getAtI_replicate {α : Type} (n : Nat) (x d : α) (k : Nat) :
    getAtI (List.replicate n x) (Int.ofNat k) d = if k < n then x else d := by
  simp [getAtI, List.getD, List.getElem?_replicate]
  split <;> rfl

theorem getAtI_of_length_le {α : Type} (l : List α) (i : Int) (d : α)
    (h : (l.length : Int) ≤ i) : getAtI l i d = d := by
  unfold getAtI
  by_cases hi : 0 ≤ i
  · have : l.length ≤ i.toNat := by omega
    simp [hi, List.getD, List.getElem?_eq_none this]
  · simp [hi]

theorem setAtI_getAtI_self {α : Type} (l : List α) (i : Int) (d : α)
    (h0 : 0 ≤ i) (h : i.toNat < l.length) : setAtI l i (getAtI l i d) = l := by
  simp only [getAtI, setAtI, if_pos h0]
  apply List.ext_getElem?
  intro m
  by_cases hm : m = i.toNat
  · subst hm
    rw [List.getElem?_set_eq_of_lt _ h, List.getD, List.getElem?_eq_getElem h]
    simp [List.get?_eq_getElem?, List.getElem?_eq_getElem h]
  · rw [List.getElem?_set_ne (fun hc => hm hc.symm)]

theorem setAtI_setAtI_self {α : Type} (l : List α) (i : Int) (a b : α) :
    setAtI (setAtI l i a) i b = setAtI l i b := by
  unfold setAtI
  split <;> simp [List.set_set]

/-! ## PriorityQueue lemmas -/

theorem mem_pqInsert {q : List Triad} {ne a : Triad} :
    a ∈ pqInsert q ne ↔ a = ne ∨ a ∈ q := by
  induction q with
  | nil => simp [pqInsert]
  | cons h t ih =>
      by_cases hc : h.v3 ≥ ne.v3
      · simp [pqInsert, hc]
      · simp [pqInsert, hc, ih]
        tauto

theorem pqInsert_eq_append (q : List Triad) (ne : Triad) :
    pqInsert q ne =
      q.takeWhile (fun e => e.v3 < ne.v3) ++ ne :: q.dropWhile (fun e => e.v3 < ne.v3) := by
  induction q with
  | nil => simp [pqInsert]
  | cons h t ih =>
      by_cases hc : h.v3 ≥ ne.v3
      · have hlt : ¬ h.v3 < ne.v3 := not_lt.mpr hc
        simp [pqInsert, hc, List.takeWhile_cons, List.dropWhile_cons, hlt]
      · have hlt : h.v3 < ne.v3 := lt_of_not_ge hc
        simp [pqInsert, hc, List.takeWhile_cons, List.dropWhile_cons, hlt, ih]

theorem pqInsert_sorted {q : List Triad} (ne : Triad)
    (h : q.Pairwise (fun a b => a.v3 ≤ b.v3)) :
    (pqInsert q ne).Pairwise (fun a b => a.v3 ≤ b.v3) := by
  induction q with
  | nil => simp [pqInsert]
  | cons hd t ih =>
      rcases List.pairwise_cons.mp h with ⟨hhd, ht⟩
      by_cases hc : hd.v3 ≥ ne.v3
      · simp only [pqInsert, if_pos hc]
        refine List.pairwise_cons.mpr ⟨?_, h⟩
        intro b hb
        rcases List.mem_cons.mp hb with hb | hb
        · exact hb ▸ hc
        · exact le_trans hc (hhd b hb)
      · simp only [pqInsert, if_neg hc]
        refine List.pairwise_cons.mpr ⟨?_, ih ht⟩
        intro b hb
        rcases mem_pqInsert.mp hb with hb | hb
        · exact hb ▸ le_of_lt (lt_of_not_ge hc)
        · exact hhd b hb

/-- C4 counterexample: inserting a triad whose cumulative cost ties an existing
entry places the new (later-inserted) triad before the earlier one, refuting
the claimed stable tie-break (earlier-inserted first). -/
theorem c4_counterexample :
    (⟨2, 3, 5⟩ : Triad).v3 = (⟨0, 1, 5⟩ : Triad).v3 ∧
    pqInsert [⟨0, 1, 5⟩] ⟨2, 3, 5⟩ ≠ [⟨0, 1, 5⟩, ⟨2, 3, 5⟩] ∧
    pqInsert [⟨0, 1, 5⟩] ⟨2, 3, 5⟩ = [⟨2, 3, 5⟩, ⟨0, 1, 5⟩] := by
  refine ⟨rfl, ?_, rfl⟩
  decide

/-- C4 (amended): `PriorityQueue::insert` keeps the queue sorted by
non-decreasing cumulative cost, and the new element is placed immediately
before the first entry of equal or greater cost — so among equal-cost entries
the later-inserted one precedes the earlier-inserted ones. -/
theorem c4_insert_sorted_new_first (q : List Triad) (ne : Triad)
    (h : q.Pairwise (fun a b => a.v3 ≤ b.v3)) :
    (pqInsert q ne).Pairwise (fun a b => a.v3 ≤ b.v3) ∧
    pqInsert q ne =
      q.takeWhile (fun e => e.v3 < ne.v3) ++ ne :: q.dropWhile (fun e => e.v3 < ne.v3) :=
  ⟨pqInsert_sorted ne h, pqInsert_eq_append q ne⟩

/-- Witness for the amended C4 theorem at a concrete sorted queue. -/
theorem c4_witness :
    ([⟨0, 1, 1⟩, ⟨7, 8, 3⟩] : List Triad).Pairwise (fun a b => a.v3 ≤ b.v3) ∧
    ((pqInsert [⟨0, 1, 1⟩, ⟨7, 8, 3⟩] ⟨4, 5, 3⟩).Pairwise (fun a b => a.v3 ≤ b.v3) ∧
      pqInsert [⟨0, 1, 1⟩, ⟨7, 8, 3⟩] ⟨4, 5, 3⟩ =
        ([⟨0, 1, 1⟩, ⟨7, 8, 3⟩] : List Triad).takeWhile (fun e => e.v3 < (3 : Int)) ++
          ⟨4, 5, 3⟩ :: ([⟨0, 1, 1⟩, ⟨7, 8, 3⟩] : List Triad).dropWhile (fun e => e.v3 < (3 : Int))) :=
  ⟨by decide, c4_insert_sorted_new_first [⟨0, 1, 1⟩, ⟨7, 8, 3⟩] ⟨4, 5, 3⟩ (by decide)⟩

theorem removeFirstWithDest_of_no_match {q : List Triad} {d : Int}
    (h : ∀ e ∈ q, e.v2 ≠ d) : removeFirstWithDest q d = q := by
  induction q with
  | nil => rfl
  | cons e t ih =>
      have he : e.v2 ≠ d := h e (List.mem_cons_self e t)
      simp only [removeFirstWithDest, if_neg he]
      rw [ih (fun x hx => h x (List.mem_cons_of_mem e hx))]

theorem mem_removeFirstWithDest {q : List Triad} {d : Int} {a : Triad}
    (h : a ∈ removeFirstWithDest q d) : a ∈ q := by
  induction q with
  | nil => simp [removeFirstWithDest] at h
  | cons e t ih =>
      by_cases he : e.v2 = d
      · simp only [removeFirstWithDest, if_pos he] at h
        exact List.mem_cons_of_mem e h
      · simp only [removeFirstWithDest, if_neg he, List.mem_cons] at h
        rcases h with h | h
        · exact h ▸ List.mem_cons_self e t
        · exact List.mem_cons_of_mem e (ih h)

theorem mem_removeFirstWithDest_of_ne {q : List Triad} {d : Int} {a : Triad}
    (ha : a ∈ q) (hne : a.v2 ≠ d) : a ∈ removeFirstWithDest q d := by
  induction q with
  | nil => simp at ha
  | cons e t ih =>
      by_cases he : e.v2 = d
      · simp only [removeFirstWithDest, if_pos he]
        rcases List.mem_cons.mp ha with h | h
        · exact absurd (h ▸ he) hne
        · exact h
      · simp only [removeFirstWithDest, if_neg he, List.mem_cons]
        rcases List.mem_cons.mp ha with h | h
        · exact Or.inl h
        · exact Or.inr (ih h)

theorem filter_removeFirstWithDest (q : List Triad) (d : Int) :
    (removeFirstWithDest q d).filter (fun e => e.v2 = d) =
      (q.filter (fun e => e.v2 = d)).tail := by
  induction q with
  | nil => rfl
  | cons e t ih =>
      by_cases he : e.v2 = d
      · simp [removeFirstWithDest, he, List.filter_cons]
      · simp [removeFirstWithDest, he, List.filter_cons, ih]

theorem pqUpdateLoop_of_no_match {q : List Triad} {d : Int}
    (h : ∀ e ∈ q, e.v2 ≠ d) : ∀ fuel i, pqUpdateLoop d fuel i q = q := by
  intro fuel
  induction fuel with
  | zero => intro i; rfl
  | succ n ih =>
      intro i
      simp only [pqUpdateLoop]
      by_cases hi : i < q.length
      · rw [if_pos hi, removeFirstWithDest_of_no_match h, ih]
      · rw [if_neg hi]

theorem pqUpdateLoop_of_at_most_one (q : List Triad) (d : Int)
    (h : (q.filter (fun e => e.v2 = d)).length ≤ 1) :
    pqUpdateLoop d q.length 0 q = removeFirstWithDest q d := by
  cases hq : q with
  | nil => rfl
  | cons e t =>
      have hlen : q.length = t.length + 1 := by rw [hq]; rfl
      rw [← hq, hlen]
      simp only [pqUpdateLoop]
      have hpos : 0 < q.length := by rw [hlen]; exact Nat.succ_pos _
      rw [if_pos hpos]
      have hnone : ∀ x ∈ removeFirstWithDest q d, x.v2 ≠ d := by
        intro x hx hxd
        have : x ∈ (removeFirstWithDest q d).filter (fun e => e.v2 = d) :=
          List.mem_filter.mpr ⟨hx, by simp [hxd]⟩
        rw [filter_removeFirstWithDest] at this
        have htl : ((q.filter (fun e => e.v2 = d)).tail).length = 0 := by
          have := List.length_tail (q.filter (fun e => e.v2 = d))
          omega
        rw [List.length_eq_zero] at htl
        simp [htl] at this
      rw [pqUpdateLoop_of_no_match hnone]

theorem mem_pqUpdateLoop {q : List Triad} {d : Int} {a : Triad} :
    ∀ fuel i, a ∈ pqUpdateLoop d fuel i q → a ∈ q := by
  intro fuel
  induction fuel generalizing q with
  | zero => intro i h; exact h
  | succ n ih =>
      intro i h
      simp only [pqUpdateLoop] at h
      by_cases hi : i < q.length
      · rw [if_pos hi] at h
        exact mem_removeFirstWithDest (ih _ h)
      · rwa [if_neg hi] at h

theorem mem_pqUpdateLoop_of_ne {q : List Triad} {d : Int} {a : Triad}
    (ha : a ∈ q) (hne : a.v2 ≠ d) : ∀ fuel i, a ∈ pqUpdateLoop d fuel i q := by
  intro fuel
  induction fuel generalizing q with
  | zero => intro i; exact ha
  | succ n ih =>
      intro i
      simp only [pqUpdateLoop]
      by_cases hi : i < q.length
      · rw [if_pos hi]
        exact ih (mem_removeFirstWithDest_of_ne ha hne) _
      · rwa [if_neg hi]

/-- C5 counterexample: on a queue holding two entries for destination `5`, the
erase loop of `update_queue_with_shorter_path` removes only one of them (the
loop index catches up with the shrinking size), so after the insertion the new
triad is not the only entry for its destination. -/
theorem c5_counterexample :
    pqUpdate [⟨0, 5, 1⟩, ⟨1, 5, 2⟩] ⟨2, 5, 0⟩ = [⟨2, 5, 0⟩, ⟨1, 5, 2⟩] ∧
    ((pqUpdate [⟨0, 5, 1⟩, ⟨1, 5, 2⟩] ⟨2, 5, 0⟩).filter
        (fun e => e.v2 = (⟨2, 5, 0⟩ : Triad).v2)).length ≠ 1 := by
  constructor
  · decide
  · decide

/-- C5 (amended): whenever the queue holds at most one entry for the new
triad's destination — the invariant `seek_path` maintains, since entries are
only ever added through this very operation — `update_queue_with_shorter_path`
removes every such entry and inserts the new triad, which is then the only
entry for that destination; entries for other destinations are untouched (as a
set of triads). -/
theorem c5_update_replaces (q : List Triad) (ne : Triad)
    (h : (q.filter (fun e => e.v2 = ne.v2)).length ≤ 1) :
    (pqUpdate q ne).filter (fun e => e.v2 = ne.v2) = [ne] ∧
    (∀ a : Triad, a.v2 ≠ ne.v2 → (a ∈ pqUpdate q ne ↔ a ∈ q)) := by
  have hloop : pqUpdateLoop ne.v2 q.length 0 q = removeFirstWithDest q ne.v2 :=
    pqUpdateLoop_of_at_most_one q ne.v2 h
  have hnone : ∀ x ∈ removeFirstWithDest q ne.v2, ¬ x.v2 = ne.v2 := by
    intro x hx hxd
    have hxf : x ∈ (removeFirstWithDest q ne.v2).filter (fun e => e.v2 = ne.v2) :=
      List.mem_filter.mpr ⟨hx, by simp [hxd]⟩
    rw [filter_removeFirstWithDest] at hxf
    have htl : ((q.filter (fun e => e.v2 = ne.v2)).tail).length = 0 := by
      have := List.length_tail (q.filter (fun e => e.v2 = ne.v2))
      omega
    rw [List.length_eq_zero] at htl
    simp [htl] at hxf
  constructor
  · rw [pqUpdate, hloop, pqInsert_eq_append, List.filter_append]
    have h1 : List.filter (fun e => e.v2 = ne.v2)
        (List.takeWhile (fun e => e.v3 < ne.v3) (removeFirstWithDest q ne.v2)) = [] := by
      rw [List.filter_eq_nil_iff]
      intro a ha
      have haq : a ∈ removeFirstWithDest q ne.v2 := by
        rw [← List.takeWhile_append_dropWhile
          (p := fun e => decide (e.v3 < ne.v3)) (l := removeFirstWithDest q ne.v2)]
        exact List.mem_append_left _ ha
      simpa using hnone a haq
    have h2 : List.filter (fun e => e.v2 = ne.v2)
        (List.dropWhile (fun e => e.v3 < ne.v3) (removeFirstWithDest q ne.v2)) = [] := by
      rw [List.filter_eq_nil_iff]
      intro a ha
      have haq : a ∈ removeFirstWithDest q ne.v2 := by
        rw [← List.takeWhile_append_dropWhile
          (p := fun e => decide (e.v3 < ne.v3)) (l := removeFirstWithDest q ne.v2)]
        exact List.mem_append_right _ ha
      simpa using hnone a haq
    simp [List.filter_cons, h1, h2]
  · intro a hane
    constructor
    · intro ha
      rcases mem_pqInsert.mp (by simpa [pqUpdate] using ha) with h1 | h1
      · exact absurd (h1 ▸ rfl) hane
      · exact mem_removeFirstWithDest (hloop ▸ h1)
    · intro ha
      have : a ∈ pqUpdateLoop ne.v2 q.length 0 q := mem_pqUpdateLoop_of_ne ha hane _ _
      exact by simpa [pqUpdate] using mem_pqInsert.mpr (Or.inr this)

/-- Witness for the amended C5 theorem at a concrete queue holding one entry
for the destination of the new triad. -/
theorem c5_witness :
    (([⟨0, 7, 4⟩, ⟨1, 9, 6⟩] : List Triad).filter
        (fun e => e.v2 = (⟨3, 7, 2⟩ : Triad).v2)).length ≤ 1 ∧
    ((pqUpdate [⟨0, 7, 4⟩, ⟨1, 9, 6⟩] ⟨3, 7, 2⟩).filter
        (fun e => e.v2 = (⟨3, 7, 2⟩ : Triad).v2) = [⟨3, 7, 2⟩] ∧
      (∀ a : Triad, a.v2 ≠ (⟨3, 7, 2⟩ : Triad).v2 →
        (a ∈ pqUpdate [⟨0, 7, 4⟩, ⟨1, 9, 6⟩] ⟨3, 7, 2⟩ ↔ a ∈ [⟨0, 7, 4⟩, ⟨1, 9, 6⟩]))) :=
  ⟨by decide, c5_update_replaces [⟨0, 7, 4⟩, ⟨1, 9, 6⟩] ⟨3, 7, 2⟩ (by decide)⟩

/-! ## C6: querying a missing edge -/

/-- C6 counterexample: on the two-node graph with no edges, querying the cost
of the absent edge `0 → 1` returns the plain value `0` — exactly the value
returned for a genuine zero-cost edge on `c6GraphZeroEdge` — so the caller
cannot distinguish the failure from a valid cost and no typed `EdgeNotFound`
failure is produced. -/
theorem c6_counterexample :
    EmbGraph.adjacent c6GraphNoEdge 0 1 = false ∧
    EmbGraph.adjacent c6GraphZeroEdge 0 1 = true ∧
    EmbGraph.get_edge_value c6GraphZeroEdge 0 1 = 0 ∧
    EmbGraph.get_edge_value c6GraphNoEdge 0 1 = EmbGraph.get_edge_value c6GraphZeroEdge 0 1 := by
  refine ⟨?_, ?_, ?_, ?_⟩ <;> decide

/-- C6 (amended): `get_edge_value` on a node pair with no edge between them
returns the plain value `0` (after printing a console message) in both the
edge-list and the matrix representation — the same value as a zero-cost edge,
with no typed failure. -/
theorem c6_missing_edge_returns_zero :
    (∀ (g : EmbGraph) (u v : Int), g.edgeList_was_computed = true →
      (∀ e ∈ getAtI g.edgeList u [], e.v1 ≠ v) →
      EmbGraph.get_edge_value g u v = 0) ∧
    (∀ (g : EmbGraph) (u v : Int), g.edgeList_was_computed = false →
      (getAtI (getAtI g.connectivityMatrix u []) v ⟨false, 0⟩).b = false →
      EmbGraph.get_edge_value g u v = 0) := by
  constructor
  · intro g u v hel hnone
    have hfind : (getAtI g.edgeList u []).find? (fun e => e.v1 = v) = none := by
      rw [List.find?_eq_none]
      intro e he
      simpa using hnone e he
    simp [EmbGraph.get_edge_value, hel, hfind]
  · intro g u v hel hmat
    by_cases hcm : g.conMatrix_was_computed = true
    · simp [EmbGraph.get_edge_value, hel, hcm, hmat]
    · simp [EmbGraph.get_edge_value, hel, hcm]

/-- Witness for the amended C6 theorem on the concrete no-edge graph. -/
theorem c6_witness :
    c6GraphNoEdge.edgeList_was_computed = true ∧
    (∀ e ∈ getAtI c6GraphNoEdge.edgeList 0 [], e.v1 ≠ 1) ∧
    EmbGraph.get_edge_value c6GraphNoEdge 0 1 = 0 :=
  ⟨rfl, by decide, c6_missing_edge_returns_zero.1 c6GraphNoEdge 0 1 rfl (by decide)⟩

/-! ## C9: bot move selection -/

theorem foldlBest_spec (b : Int × ℚ) (t : List (Int × ℚ)) :
    (t.foldl (fun best p => if p.2 > best.2 then p else best) b) ∈ b :: t ∧
    (∀ p ∈ b :: t, p.2 ≤ (t.foldl (fun best p => if p.2 > best.2 then p else best) b).2) ∧
    (∃ l1 l2, b :: t = l1 ++ (t.foldl (fun best p => if p.2 > best.2 then p else best) b) :: l2 ∧
      ∀ p ∈ l1, p.2 < (t.foldl (fun best p => if p.2 > best.2 then p else best) b).2) := by
  induction t generalizing b with
  | nil =>
      refine ⟨List.mem_singleton.mpr rfl, ?_, [], [], rfl, by simp⟩
      intro p hp
      rw [List.mem_singleton.mp hp]
      simp
  | cons a t' ih =>
      simp only [List.foldl_cons]
      by_cases hab : a.2 > b.2
      · rw [if_pos hab]
        rcases ih a with ⟨hmem, hge, l1, l2, hsplit, hlt⟩
        have ha : a.2 ≤ (t'.foldl (fun best p => if p.2 > best.2 then p else best) a).2 :=
          hge a (List.mem_cons_self a t')
        refine ⟨List.mem_cons_of_mem b hmem, ?_, b :: l1, l2,
          by rw [List.cons_append, ← hsplit], ?_⟩
        · intro p hp
          rcases List.mem_cons.mp hp with h | h
          · rw [h]; exact le_trans (le_of_lt hab) ha
          · exact hge p h
        · intro p hp
          rcases List.mem_cons.mp hp with h | h
          · rw [h]; exact lt_of_lt_of_le hab ha
          · exact hlt p h
      · rw [if_neg hab]
        rcases ih b with ⟨hmem, hge, l1, l2, hsplit, hlt⟩
        have hb : b.2 ≤ (t'.foldl (fun best p => if p.2 > best.2 then p else best) b).2 :=
          hge b (List.mem_cons_self b t')
        refine ⟨?_, ?_, ?_⟩
        · rcases List.mem_cons.mp hmem with h | h
          · rw [h]; exact List.mem_cons_self b (a :: t')
          · exact List.mem_cons_of_mem b (List.mem_cons_of_mem a h)
        · intro p hp
          rcases List.mem_cons.mp hp with h | h
          · exact hge p (by rw [h]; exact List.mem_cons_self b t')
          · rcases List.mem_cons.mp h with h2 | h2
            · rw [h2]; exact le_trans (not_lt.mp hab) hb
            · exact hge p (List.mem_cons_of_mem b h2)
        · cases l1 with
          | nil =>
              simp only [List.nil_append] at hsplit
              rw [List.cons.injEq] at hsplit
              refine ⟨[], a :: l2, ?_, by simp⟩
              rw [List.nil_append, ← hsplit.1, hsplit.2]
          | cons x l1' =>
              rw [List.cons_append, List.cons.injEq] at hsplit
              have hbr : b.2 < (t'.foldl (fun best p => if p.2 > best.2 then p else best) b).2 := by
                have := hlt x (List.mem_cons_self x l1')
                rw [← hsplit.1] at this
                exact this
              refine ⟨b :: a :: l1', l2, ?_, ?_⟩
              · rw [List.cons_append, List.cons_append, ← hsplit.2]
              · intro p hp
                rcases List.mem_cons.mp hp with h | h
                · rw [h]; exact hbr
                · rcases List.mem_cons.mp h with h2 | h2
                  · rw [h2]; exact lt_of_le_of_lt (not_lt.mp hab) hbr
                  · exact hlt p (List.mem_cons_of_mem x h2)

/-- C9: the scan over `nodes_and_ratios` keeps the first candidate attaining
the maximal win ratio (replacement happens only on strictly greater ratio),
and the swap option is taken exactly when the swap rule is active and its
ratio is strictly greater than that maximum; otherwise the scanned candidate
is returned with the swap flag clear. -/
theorem c9_selection (l : List (Int × ℚ)) (hne : l ≠ []) (swapRule : Bool) (rs : ℚ) (p1 : Int) :
    chooseBest l ∈ l ∧
    (∀ p ∈ l, p.2 ≤ (chooseBest l).2) ∧
    (∃ l1 l2, l = l1 ++ chooseBest l :: l2 ∧ ∀ p ∈ l1, p.2 < (chooseBest l).2) ∧
    ((selectBotMove swapRule rs p1 l).2 = true ↔ (swapRule = true ∧ rs > (chooseBest l).2)) ∧
    ((selectBotMove swapRule rs p1 l).2 = true → (selectBotMove swapRule rs p1 l).1 = (p1, rs)) ∧
    ((selectBotMove swapRule rs p1 l).2 = false → (selectBotMove swapRule rs p1 l).1 = chooseBest l) := by
  cases l with
  | nil => exact absurd rfl hne
  | cons h t =>
      rcases foldlBest_spec h t with ⟨hmem, hge, hsplit⟩
      refine ⟨hmem, hge, hsplit, ?_, ?_, ?_⟩
      · constructor
        · intro hsel
          by_cases hc : swapRule = true ∧ rs > (chooseBest (h :: t)).2
          · exact hc
          · simp [selectBotMove, hc] at hsel
        · intro hc
          simp [selectBotMove, hc]
      · intro hsel
        by_cases hc : swapRule = true ∧ rs > (chooseBest (h :: t)).2
        · simp [selectBotMove, hc]
        · simp [selectBotMove, hc] at hsel
      · intro hsel
        by_cases hc : swapRule = true ∧ rs > (chooseBest (h :: t)).2
        · simp [selectBotMove, hc] at hsel
        · simp [selectBotMove, hc]

/-- Witness for the C9 theorem: two tied best candidates and a swap ratio that
only ties — the first candidate is kept and swap is not used. -/
theorem c9_witness :
    ([((0 : Int), (1 : ℚ) / 2), (1, 1 / 2), (2, 1 / 4)] : List (Int × ℚ)) ≠ [] ∧
    (chooseBest [((0 : Int), (1 : ℚ) / 2), (1, 1 / 2), (2, 1 / 4)] ∈
        ([((0 : Int), (1 : ℚ) / 2), (1, 1 / 2), (2, 1 / 4)] : List (Int × ℚ)) ∧
      (∀ p ∈ ([((0 : Int), (1 : ℚ) / 2), (1, 1 / 2), (2, 1 / 4)] : List (Int × ℚ)),
        p.2 ≤ (chooseBest [((0 : Int), (1 : ℚ) / 2), (1, 1 / 2), (2, 1 / 4)]).2) ∧
      (∃ l1 l2, ([((0 : Int), (1 : ℚ) / 2), (1, 1 / 2), (2, 1 / 4)] : List (Int × ℚ)) =
          l1 ++ chooseBest [((0 : Int), (1 : ℚ) / 2), (1, 1 / 2), (2, 1 / 4)] :: l2 ∧
        ∀ p ∈ l1, p.2 < (chooseBest [((0 : Int), (1 : ℚ) / 2), (1, 1 / 2), (2, 1 / 4)]).2) ∧
      ((selectBotMove true (1 / 2) 9 [((0 : Int), (1 : ℚ) / 2), (1, 1 / 2), (2, 1 / 4)]).2 = true ↔
        (true = true ∧ (1 : ℚ) / 2 > (chooseBest [((0 : Int), (1 : ℚ) / 2), (1, 1 / 2), (2, 1 / 4)]).2)) ∧
      ((selectBotMove true (1 / 2) 9 [((0 : Int), (1 : ℚ) / 2), (1, 1 / 2), (2, 1 / 4)]).2 = true →
        (selectBotMove true (1 / 2) 9 [((0 : Int), (1 : ℚ) / 2), (1, 1 / 2), (2, 1 / 4)]).1 = (9, 1 / 2)) ∧
      ((selectBotMove true (1 / 2) 9 [((0 : Int), (1 : ℚ) / 2), (1, 1 / 2), (2, 1 / 4)]).2 = false →
        (selectBotMove true (1 / 2) 9 [((0 : Int), (1 : ℚ) / 2), (1, 1 / 2), (2, 1 / 4)]).1 =
          chooseBest [((0 : Int), (1 : ℚ) / 2), (1, 1 / 2), (2, 1 / 4)])) :=
  ⟨by decide, c9_selection [((0 : Int), (1 : ℚ) / 2), (1, 1 / 2), (2, 1 / 4)] (by decide) true (1 / 2) 9⟩

/-! ## C8: representation round trip -/

theorem conMatrixPrefix_eq (size : Nat) (el : List (List IntPair)) :
    EmbGraph.conMatrixFromEdgeList size el = conMatrixPrefix size el size := rfl

theorem conMatrix_inner_fold (entries : List IntPair) (i : Nat) (m : List (List BoolPair))
    (h : i < m.length) :
    entries.foldl
      (fun m2 e => setAtI m2 (Int.ofNat i) (setAtI (getAtI m2 (Int.ofNat i) []) e.v1 ⟨true, e.v2⟩))
      m =
    setAtI m (Int.ofNat i) (rowFold entries (getAtI m (Int.ofNat i) [])) := by
  induction entries generalizing m with
  | nil =>
      simp only [List.foldl_nil, rowFold]
      exact (setAtI_getAtI_self m (Int.ofNat i) [] (by simp) (by simpa using h)).symm
  | cons e rest ih =>
      simp only [List.foldl_cons, rowFold]
      rw [ih _ (by rw [setAtI_length]; exact h)]
      rw [getAtI_setAtI_self _ _ _ _ (by simp) (by simpa using h)]
      rw [setAtI_setAtI_self]
      rfl

theorem conMatrixPrefix_row (size : Nat) (el : List (List IntPair)) :
    ∀ k, k ≤ size →
      (conMatrixPrefix size el k).length = size ∧
      ∀ r : Nat,
        getAtI (conMatrixPrefix size el k) (Int.ofNat r) [] =
        if r < k then rowFold (getAtI el (Int.ofNat r) []) (List.replicate size ⟨false, 0⟩)
        else if r < size then List.replicate size ⟨false, 0⟩ else [] := by
  intro k
  induction k with
  | zero =>
      intro _
      refine ⟨by simp [conMatrixPrefix], ?_⟩
      intro r
      simp only [conMatrixPrefix, List.range_zero, List.foldl_nil]
      rw [getAtI_replicate]
      by_cases hr : r < size
      · simp [hr]
      · simp [hr]
  | succ n ih =>
      intro hk
      rcases ih (Nat.le_of_succ_le hk) with ⟨ihlen, ihrow⟩
      have hsucc : conMatrixPrefix size el (n + 1) =
          (getAtI el (Int.ofNat n) []).foldl
            (fun m2 e => setAtI m2 (Int.ofNat n) (setAtI (getAtI m2 (Int.ofNat n) []) e.v1 ⟨true, e.v2⟩))
            (conMatrixPrefix size el n) := by
        unfold conMatrixPrefix
        rw [List.range_succ, List.foldl_append, List.foldl_cons, List.foldl_nil]
      have hstep : conMatrixPrefix size el (n + 1) =
          setAtI (conMatrixPrefix size el n) (Int.ofNat n)
            (rowFold (getAtI el (Int.ofNat n) [])
              (getAtI (conMatrixPrefix size el n) (Int.ofNat n) [])) := by
        rw [hsucc]
        exact conMatrix_inner_fold _ _ _ (by rw [ihlen]; exact hk)
      have hn : n < size := hk
      have hrown : getAtI (conMatrixPrefix size el n) (Int.ofNat n) [] =
          List.replicate size (⟨false, 0⟩ : BoolPair) := by
        rw [ihrow n]
        simp [hn]
      rw [hstep, hrown]
      constructor
      · rw [setAtI_length, ihlen]
      · intro r
        by_cases hr : r = n
        · subst hr
          rw [getAtI_setAtI_self _ _ _ _ (by simp) (by simpa [ihlen] using hn)]
          simp [Nat.lt_succ_self]
        · rw [getAtI_setAtI_ne _ _ _ _ _ (by simpa using fun hc => hr (by omega))]
          rw [ihrow r]
          by_cases h1 : r < n
          · simp [h1, (show r < n + 1 by omega)]
          · simp [h1, (show ¬ r < n + 1 by omega)]

theorem rowFold_length (entries : List IntPair) (row : List BoolPair) :
    (rowFold entries row).length = row.length := by
  induction entries generalizing row with
  | nil => rfl
  | cons e rest ih =>
      simp only [rowFold, List.foldl_cons]
      rw [show (List.foldl (fun r e => setAtI r e.v1 ⟨true, e.v2⟩)
        (setAtI row e.v1 ⟨true, e.v2⟩) rest) = rowFold rest (setAtI row e.v1 ⟨true, e.v2⟩) from rfl]
      rw [ih, setAtI_length]

theorem rowFold_not_mem (entries : List IntPair) (row : List BoolPair) (j : Int) (d : BoolPair)
    (h : ∀ e ∈ entries, e.v1 ≠ j) :
    getAtI (rowFold entries row) j d = getAtI row j d := by
  induction entries generalizing row with
  | nil => rfl
  | cons e rest ih =>
      simp only [rowFold, List.foldl_cons]
      rw [show (List.foldl (fun r e => setAtI r e.v1 ⟨true, e.v2⟩)
        (setAtI row e.v1 ⟨true, e.v2⟩) rest) = rowFold rest (setAtI row e.v1 ⟨true, e.v2⟩) from rfl]
      rw [ih _ (fun x hx => h x (List.mem_cons_of_mem e hx))]
      rw [getAtI_setAtI_ne _ _ _ _ _ (h e (List.mem_cons_self e rest))]

theorem rowFold_mem (entries : List IntPair) (row : List BoolPair)
    (hnd : (entries.map (fun e => e.v1)).Nodup)
    (hwf : ∀ e ∈ entries, 0 ≤ e.v1 ∧ e.v1.toNat < row.length) :
    ∀ x ∈ entries, getAtI (rowFold entries row) x.v1 ⟨false, 0⟩ = ⟨true, x.v2⟩ := by
  induction entries generalizing row with
  | nil => intro x hx; simp at hx
  | cons e rest ih =>
      intro x hx
      simp only [rowFold, List.foldl_cons]
      rw [show (List.foldl (fun r e => setAtI r e.v1 ⟨true, e.v2⟩)
        (setAtI row e.v1 ⟨true, e.v2⟩) rest) = rowFold rest (setAtI row e.v1 ⟨true, e.v2⟩) from rfl]
      rcases List.mem_cons.mp hx with h | h
      · subst h
        have hnd2 : (∀ y ∈ rest, ¬ y.v1 = x.v1) ∧ ((rest.map fun e => e.v1).Nodup) := by
          simpa using hnd
        rw [rowFold_not_mem _ _ _ _ hnd2.1]
        rcases hwf x (List.mem_cons_self x rest) with ⟨h0, hlt⟩
        exact getAtI_setAtI_self _ _ _ _ h0 hlt
      · have hnd2 : (∀ y ∈ rest, ¬ y.v1 = e.v1) ∧ ((rest.map fun x => x.v1).Nodup) := by
          simpa using hnd
        refine ih _ hnd2.2 ?_ x h
        intro y hy
        rcases hwf y (List.mem_cons_of_mem e hy) with ⟨h0, hlt⟩
        exact ⟨h0, by rwa [setAtI_length]⟩

theorem edgeListFromConMatrix_row (size : Nat) (M : List (List BoolPair)) (u : Nat)
    (hu : u < size) :
    (EmbGraph.edgeListFromConMatrix size M).getD u [] =
      (List.range size).filterMap (fun j =>
        let c := getAtI (getAtI M (Int.ofNat u) []) (Int.ofNat j) ⟨false, 0⟩
        if c.b then some ⟨Int.ofNat j, c.v⟩ else none) := by
  unfold EmbGraph.edgeListFromConMatrix
  simp [List.getD, List.getElem?_map, List.getElem?_range hu]

/-- C8: starting from a materialised edge list (well-formed: one row per node,
in-range destinations, at most one entry per destination within a row),
deriving the connectivity matrix and then deriving the edge list back from
that matrix reproduces, row by row, exactly the original set of
(destination, cost) entries — the adjacency relation and every edge cost, not
merely connectivity. -/
theorem c8_round_trip (g : EmbGraph)
    (hel : g.edgeList_was_computed = true)
    (_hlen : g.edgeList.length = g.size)
    (hwf : ∀ u : Nat, u < g.size → ∀ e ∈ g.edgeList.getD u [], 0 ≤ e.v1 ∧ e.v1 < (g.size : Int))
    (hnd : ∀ u : Nat, u < g.size → ((g.edgeList.getD u []).map (fun e => e.v1)).Nodup) :
    (g.generate_conMatrix_from_edgeList.generate_edgeList_from_conMatrix).edgeList_was_computed
        = true ∧
    ∀ u : Nat, u < g.size → ∀ x : IntPair,
      (x ∈ (g.generate_conMatrix_from_edgeList.generate_edgeList_from_conMatrix).edgeList.getD u []
        ↔ x ∈ g.edgeList.getD u []) := by
  have hg1 : g.generate_conMatrix_from_edgeList =
      { g with connectivityMatrix := EmbGraph.conMatrixFromEdgeList g.size g.edgeList
               conMatrix_was_computed := true } := by
    simp [EmbGraph.generate_conMatrix_from_edgeList, hel]
  rw [hg1]
  have hg2 : EmbGraph.generate_edgeList_from_conMatrix
      { g with connectivityMatrix := EmbGraph.conMatrixFromEdgeList g.size g.edgeList
               conMatrix_was_computed := true } =
      { g with connectivityMatrix := EmbGraph.conMatrixFromEdgeList g.size g.edgeList
               conMatrix_was_computed := true
               edgeList := EmbGraph.edgeListFromConMatrix g.size
                 (EmbGraph.conMatrixFromEdgeList g.size g.edgeList)
               edgeList_was_computed := true } := by
    simp [EmbGraph.generate_edgeList_from_conMatrix]
  rw [hg2]
  refine ⟨rfl, ?_⟩
  intro u hu x
  have hrowu : getAtI (EmbGraph.conMatrixFromEdgeList g.size g.edgeList) (Int.ofNat u) [] =
      rowFold (getAtI g.edgeList (Int.ofNat u) []) (List.replicate g.size ⟨false, 0⟩) := by
    rw [conMatrixPrefix_eq]
    have := (conMatrixPrefix_row g.size g.edgeList g.size le_rfl).2 u
    rw [if_pos hu] at this
    exact this
  have hentries : getAtI g.edgeList (Int.ofNat u) [] = g.edgeList.getD u [] := getAtI_ofNat _ _ _
  have hwfu : ∀ e ∈ g.edgeList.getD u [], 0 ≤ e.v1 ∧
      e.v1.toNat < (List.replicate g.size (⟨false, 0⟩ : BoolPair)).length := by
    intro e he
    rcases hwf u hu e he with ⟨h0, hlt⟩
    refine ⟨h0, ?_⟩
    rw [List.length_replicate]
    omega
  rw [edgeListFromConMatrix_row _ _ _ hu]
  simp only [List.mem_filterMap]
  constructor
  · rintro ⟨j, hj, hfx⟩
    rw [hrowu, hentries] at hfx
    by_cases hex : ∃ e ∈ g.edgeList.getD u [], e.v1 = Int.ofNat j
    · rcases hex with ⟨e, he, hev⟩
      have hcell := rowFold_mem _ _ (hnd u hu) hwfu e he
      rw [hev] at hcell
      rw [hcell] at hfx
      simp only [if_pos rfl] at hfx
      have hx : x = ⟨Int.ofNat j, e.v2⟩ := by
        cases hfx
        rfl
      rw [hx, ← hev]
      exact he
    · push_neg at hex
      rw [rowFold_not_mem _ _ _ _ hex] at hfx
      rw [getAtI_replicate] at hfx
      rw [if_pos (List.mem_range.mp hj)] at hfx
      simp at hfx
  · intro hx
    rcases hwf u hu x hx with ⟨h0, hlt⟩
    refine ⟨x.v1.toNat, List.mem_range.mpr (by omega), ?_⟩
    have hofnat : Int.ofNat x.v1.toNat = x.v1 := Int.toNat_of_nonneg h0
    rw [hrowu, hentries, hofnat]
    have hcell := rowFold_mem _ _ (hnd u hu) hwfu x hx
    rw [hcell]
    rfl

/-- Witness for C8 on a concrete two-node graph with one cost-7 edge. -/
theorem c8_witness :
    c8SampleGraph.edgeList_was_computed = true ∧
    c8SampleGraph.edgeList.length = c8SampleGraph.size ∧
    (∀ u : Nat, u < c8SampleGraph.size → ∀ e ∈ c8SampleGraph.edgeList.getD u [],
      0 ≤ e.v1 ∧ e.v1 < (c8SampleGraph.size : Int)) ∧
    (∀ u : Nat, u < c8SampleGraph.size →
      ((c8SampleGraph.edgeList.getD u []).map (fun e => e.v1)).Nodup) ∧
    ((c8SampleGraph.generate_conMatrix_from_edgeList.generate_edgeList_from_conMatrix).edgeList_was_computed
        = true ∧
      ∀ u : Nat, u < c8SampleGraph.size → ∀ x : IntPair,
        (x ∈ (c8SampleGraph.generate_conMatrix_from_edgeList.generate_edgeList_from_conMatrix).edgeList.getD u []
          ↔ x ∈ c8SampleGraph.edgeList.getD u [])) :=
  ⟨rfl, rfl, by decide, by decide,
    c8_round_trip c8SampleGraph rfl rfl (by decide) (by decide)⟩

/-! ## C7: hex adjacency symmetry -/

theorem setAtI_of_length_le {α : Type} (l : List α) (i : Int) (a : α)
    (h : (l.length : Int) ≤ i) : setAtI l i a = l := by
  unfold setAtI
  by_cases hi : 0 ≤ i
  · rw [if_pos hi, List.set_eq_of_length_le (by omega)]
  · rw [if_neg hi]

theorem getAtI_mem {α : Type} (l : List α) (i : Int) (d : α)
    (h0 : 0 ≤ i) (h : i.toNat < l.length) : getAtI l i d ∈ l := by
  unfold getAtI
  rw [if_pos h0, List.getD, List.get?_eq_getElem?, List.getElem?_eq_getElem h, Option.getD_some]
  exact List.getElem_mem h

theorem hexFold_cell (N : Nat) (ws : List (Nat × Nat)) :
    ∀ m : List (List BoolPair), m.length = N → (∀ row ∈ m, row.length = N) →
      (ws.foldl hexApplyWrite m).length = N ∧
      (∀ row ∈ ws.foldl hexApplyWrite m, row.length = N) ∧
      ∀ r c : Nat,
        getAtI (getAtI (ws.foldl hexApplyWrite m) (Int.ofNat r) []) (Int.ofNat c) ⟨false, 0⟩ =
          if (r, c) ∈ ws ∧ r < N ∧ c < N then ⟨true, 1⟩
          else getAtI (getAtI m (Int.ofNat r) []) (Int.ofNat c) ⟨false, 0⟩ := by
  induction ws with
  | nil =>
      intro m hlen hrows
      refine ⟨hlen, hrows, ?_⟩
      intro r c
      simp
  | cons w rest ih =>
      intro m hlen hrows
      by_cases hw1 : w.1 < N
      · have hm1len : (hexApplyWrite m w).length = N := by
          rw [hexApplyWrite, setAtI_length, hlen]
        have hrow1 : getAtI m (Int.ofNat w.1) [] ∈ m :=
          getAtI_mem m _ [] (by simp) (by simpa [hlen] using hw1)
        have hrowlen : (getAtI m (Int.ofNat w.1) []).length = N := hrows _ hrow1
        have hm1rows : ∀ row ∈ hexApplyWrite m w, row.length = N := by
          intro row hrow
          rw [hexApplyWrite, setAtI] at hrow
          rw [if_pos (by simp : (0 : Int) ≤ Int.ofNat w.1)] at hrow
          rcases List.mem_or_eq_of_mem_set hrow with h | h
          · exact hrows row h
          · rw [h, setAtI_length, hrowlen]
        rcases ih (hexApplyWrite m w) hm1len hm1rows with ⟨l1, l2, l3⟩
        refine ⟨by simpa [List.foldl_cons] using l1, by simpa [List.foldl_cons] using l2, ?_⟩
        intro r c
        rw [List.foldl_cons, l3 r c]
        by_cases hrc : (r, c) ∈ rest ∧ r < N ∧ c < N
        · rw [if_pos hrc, if_pos ⟨List.mem_cons_of_mem w hrc.1, hrc.2⟩]
        · rw [if_neg hrc]
          by_cases hwrc : (r, c) = w ∧ r < N ∧ c < N
          · rcases hwrc with ⟨hrc2, hr, hc⟩
            have hr1 : r = w.1 := by rw [← hrc2]
            have hc1 : c = w.2 := by rw [← hrc2]
            rw [if_pos ⟨(by rw [hrc2]; exact List.mem_cons_self w rest), hr, hc⟩]
            rw [hr1, hc1, hexApplyWrite]
            rw [getAtI_setAtI_self _ _ _ _ (by simp) (by simpa [hlen] using hw1)]
            rw [getAtI_setAtI_self _ _ _ _ (by simp)
              (by rw [show (Int.ofNat w.2).toNat = w.2 from rfl, hrowlen]; omega)]
          · have hcond : ¬ ((r, c) ∈ w :: rest ∧ r < N ∧ c < N) := by
              intro hcon
              rcases hcon with ⟨hmem, hb⟩
              rcases List.mem_cons.mp hmem with h | h
              · exact hwrc ⟨h, hb⟩
              · exact hrc ⟨h, hb⟩
            rw [if_neg hcond]
            by_cases hr : r = w.1
            · by_cases hc : c = w.2
              · have hb : ¬ (r < N ∧ c < N) := fun hb2 => hwrc ⟨by rw [hr, hc], hb2⟩
                have hcn : N ≤ w.2 := by omega
                rw [hr, hc, hexApplyWrite]
                rw [getAtI_setAtI_self _ _ _ _ (by simp) (by simpa [hlen] using hw1)]
                rw [setAtI_of_length_le _ _ _
                  (by rw [hrowlen, Int.ofNat_eq_natCast]; omega)]
              · rw [hr, hexApplyWrite]
                rw [getAtI_setAtI_self _ _ _ _ (by simp) (by simpa [hlen] using hw1)]
                rw [getAtI_setAtI_ne _ _ _ _ _ (by simpa using fun hcc => hc (by omega))]
            · rw [hexApplyWrite]
              rw [getAtI_setAtI_ne _ _ _ _ _ (by simpa using fun hcc => hr (by omega))]
      · have hm1 : hexApplyWrite m w = m := by
          rw [hexApplyWrite, setAtI_of_length_le _ _ _ (by rw [hlen]; simp; omega)]
        rcases ih m hlen hrows with ⟨l1, l2, l3⟩
        refine ⟨by simpa [List.foldl_cons, hm1] using l1,
                by simpa [List.foldl_cons, hm1] using l2, ?_⟩
        intro r c
        rw [List.foldl_cons, hm1, l3 r c]
        by_cases hrc : (r, c) ∈ rest ∧ r < N ∧ c < N
        · rw [if_pos hrc, if_pos ⟨List.mem_cons_of_mem w hrc.1, hrc.2⟩]
        · rw [if_neg hrc]
          have hcond : ¬ ((r, c) ∈ w :: rest ∧ r < N ∧ c < N) := by
            intro hcon
            rcases hcon with ⟨hmem, hb⟩
            rcases List.mem_cons.mp hmem with h | h
            · have : r = w.1 := by rw [← h]
              omega
            · exact hrc ⟨h, hb⟩
          rw [if_neg hcond]

theorem hexConMatrix_cell (L r c : Nat) :
    getAtI (getAtI (hexConMatrix L) (Int.ofNat r) []) (Int.ofNat c) ⟨false, 0⟩ =
      if (r, c) ∈ hexWrites L ∧ r < L * L ∧ c < L * L then ⟨true, 1⟩ else ⟨false, 0⟩ := by
  have hbase : ∀ r c : Nat,
      getAtI (getAtI (List.replicate (L * L) (List.replicate (L * L) (⟨false, 0⟩ : BoolPair)))
        (Int.ofNat r) []) (Int.ofNat c) ⟨false, 0⟩ = ⟨false, 0⟩ := by
    intro r c
    rw [getAtI_replicate]
    by_cases hr : r < L * L
    · rw [if_pos hr, getAtI_replicate]
      by_cases hc : c < L * L
      · rw [if_pos hc]
      · rw [if_neg hc]
    · rw [if_neg hr]
      rfl
  have := (hexFold_cell (L * L) (hexWrites L)
    (List.replicate (L * L) (List.replicate (L * L) ⟨false, 0⟩)) (by simp)
    (by intro row hrow; rw [List.eq_of_mem_replicate hrow]; simp)).2.2 r c
  rw [hexConMatrix, this, hbase]

theorem mem_hexWrites (L r c : Nat) :
    (r, c) ∈ hexWrites L ↔ c < L * L ∧ r ∈ hexCaseNeighbors L c := by
  simp only [hexWrites, List.mem_flatMap, List.mem_map, List.mem_range, Prod.mk.injEq]
  constructor
  · rintro ⟨node, hnode, t, ht, h1, h2⟩
    subst h2
    subst h1
    exact ⟨hnode, ht⟩
  · rintro ⟨hc, hr⟩
    exact ⟨c, hc, r, hr, rfl, rfl⟩

theorem idx_eq_iff (L a b r : Nat) (hb : b < L) :
    r = a * L + b ↔ (r / L = a ∧ r % L = b) := by
  constructor
  · rintro rfl
    constructor
    · rw [Nat.add_comm, Nat.add_mul_div_right b a (show 0 < L by omega), Nat.div_eq_of_lt hb]
      omega
    · rw [Nat.add_comm, Nat.add_mul_mod_self_right, Nat.mod_eq_of_lt hb]
  · rintro ⟨h1, h2⟩
    subst h1
    subst h2
    rw [Nat.mul_comm]
    exact (Nat.div_add_mod r L).symm

set_option maxHeartbeats 2000000 in
theorem mem_hexCaseNeighbors_iff (L r c : Nat) (hL : 2 ≤ L) (hc : c < L * L) :
    r ∈ hexCaseNeighbors L c ↔
      (r < L * L ∧
        (((r / L : Nat) : Int) - ((c / L : Nat) : Int),
          ((r % L : Nat) : Int) - ((c % L : Nat) : Int)) ∈ hexOffsets) := by
  have hx : c / L < L := Nat.div_lt_of_lt_mul hc
  have hy : c % L < L := Nat.mod_lt _ (by omega)
  have hry : r % L < L := Nat.mod_lt _ (by omega)
  have hrb : r < L * L ↔ r / L < L := (Nat.div_lt_iff_lt_mul (show 0 < L by omega)).symm
  simp only [hexCaseNeighbors]
  split_ifs with h1 h2 h3 h4 h5 h6 h7 h8
  · rw [List.mem_cons, List.mem_singleton,
      idx_eq_iff L (c / L) (c % L + 1) r (by omega),
      idx_eq_iff L (c / L + 1) (c % L) r (by omega)]
    simp only [hexOffsets, List.mem_cons, List.not_mem_nil, or_false, Prod.mk.injEq]
    rw [hrb]
    revert hx hy hry h1
    generalize r / L = rx
    generalize r % L = ry
    generalize c / L = cx
    generalize c % L = cy
    omega
  · rw [List.mem_cons, List.mem_singleton,
      idx_eq_iff L (c / L - 1) (c % L) r (by omega),
      idx_eq_iff L (c / L) (c % L - 1) r (by omega)]
    simp only [hexOffsets, List.mem_cons, List.not_mem_nil, or_false, Prod.mk.injEq]
    rw [hrb]
    revert hx hy hry h1 h2
    generalize r / L = rx
    generalize r % L = ry
    generalize c / L = cx
    generalize c % L = cy
    omega
  · rw [List.mem_cons, List.mem_cons, List.mem_singleton,
      idx_eq_iff L (c / L - 1) (c % L) r (by omega),
      idx_eq_iff L (c / L - 1) (c % L + 1) r (by omega),
      idx_eq_iff L (c / L) (c % L + 1) r (by omega)]
    simp only [hexOffsets, List.mem_cons, List.not_mem_nil, or_false, Prod.mk.injEq]
    rw [hrb]
    revert hx hy hry h1 h2 h3
    generalize r / L = rx
    generalize r % L = ry
    generalize c / L = cx
    generalize c % L = cy
    omega
  · rw [List.mem_cons, List.mem_cons, List.mem_singleton,
      idx_eq_iff L (c / L) (c % L - 1) r (by omega),
      idx_eq_iff L (c / L + 1) (c % L - 1) r (by omega),
      idx_eq_iff L (c / L + 1) (c % L) r (by omega)]
    simp only [hexOffsets, List.mem_cons, List.not_mem_nil, or_false, Prod.mk.injEq]
    rw [hrb]
    revert hx hy hry h1 h2 h3 h4
    generalize r / L = rx
    generalize r % L = ry
    generalize c / L = cx
    generalize c % L = cy
    omega
  · rw [List.mem_cons, List.mem_cons, List.mem_cons, List.mem_singleton,
      idx_eq_iff L (c / L) (c % L - 1) r (by omega),
      idx_eq_iff L (c / L) (c % L + 1) r (by omega),
      idx_eq_iff L (c / L + 1) (c % L - 1) r (by omega),
      idx_eq_iff L (c / L + 1) (c % L) r (by omega)]
    simp only [hexOffsets, List.mem_cons, List.not_mem_nil, or_false, Prod.mk.injEq]
    rw [hrb]
    revert hx hy hry h1 h2 h3 h4 h5
    generalize r / L = rx
    generalize r % L = ry
    generalize c / L = cx
    generalize c % L = cy
    omega
  · rw [List.mem_cons, List.mem_cons, List.mem_cons, List.mem_singleton,
      idx_eq_iff L (c / L - 1) (c % L) r (by omega),
      idx_eq_iff L (c / L - 1) (c % L + 1) r (by omega),
      idx_eq_iff L (c / L) (c % L - 1) r (by omega),
      idx_eq_iff L (c / L) (c % L + 1) r (by omega)]
    simp only [hexOffsets, List.mem_cons, List.not_mem_nil, or_false, Prod.mk.injEq]
    rw [hrb]
    revert hx hy hry h1 h2 h3 h4 h5 h6
    generalize r / L = rx
    generalize r % L = ry
    generalize c / L = cx
    generalize c % L = cy
    omega
  · rw [List.mem_cons, List.mem_cons, List.mem_cons, List.mem_singleton,
      idx_eq_iff L (c / L - 1) (c % L) r (by omega),
      idx_eq_iff L (c / L - 1) (c % L + 1) r (by omega),
      idx_eq_iff L (c / L) (c % L + 1) r (by omega),
      idx_eq_iff L (c / L + 1) (c % L) r (by omega)]
    simp only [hexOffsets, List.mem_cons, List.not_mem_nil, or_false, Prod.mk.injEq]
    rw [hrb]
    revert hx hy hry h1 h2 h3 h4 h5 h6 h7
    generalize r / L = rx
    generalize r % L = ry
    generalize c / L = cx
    generalize c % L = cy
    omega
  · rw [List.mem_cons, List.mem_cons, List.mem_cons, List.mem_singleton,
      idx_eq_iff L (c / L - 1) (c % L) r (by omega),
      idx_eq_iff L (c / L) (c % L - 1) r (by omega),
      idx_eq_iff L (c / L + 1) (c % L - 1) r (by omega),
      idx_eq_iff L (c / L + 1) (c % L) r (by omega)]
    simp only [hexOffsets, List.mem_cons, List.not_mem_nil, or_false, Prod.mk.injEq]
    rw [hrb]
    revert hx hy hry h1 h2 h3 h4 h5 h6 h7 h8
    generalize r / L = rx
    generalize r % L = ry
    generalize c / L = cx
    generalize c % L = cy
    omega
  · rw [List.mem_cons, List.mem_cons, List.mem_cons, List.mem_cons, List.mem_cons,
      List.mem_singleton,
      idx_eq_iff L (c / L - 1) (c % L) r (by omega),
      idx_eq_iff L (c / L - 1) (c % L + 1) r (by omega),
      idx_eq_iff L (c / L) (c % L - 1) r (by omega),
      idx_eq_iff L (c / L) (c % L + 1) r (by omega),
      idx_eq_iff L (c / L + 1) (c % L - 1) r (by omega),
      idx_eq_iff L (c / L + 1) (c % L) r (by omega)]
    simp only [hexOffsets, List.mem_cons, List.not_mem_nil, or_false, Prod.mk.injEq]
    rw [hrb]
    revert hx hy hry h1 h2 h3 h4 h5 h6 h7 h8
    generalize r / L = rx
    generalize r % L = ry
    generalize c / L = cx
    generalize c % L = cy
    omega

theorem hexCaseNeighbors_symm (L r c : Nat) (hL : 2 ≤ L) (hr : r < L * L) (hc : c < L * L) :
    r ∈ hexCaseNeighbors L c ↔ c ∈ hexCaseNeighbors L r := by
  rw [mem_hexCaseNeighbors_iff L r c hL hc, mem_hexCaseNeighbors_iff L c r hL hr]
  simp only [hexOffsets, List.mem_cons, List.not_mem_nil, or_false, Prod.mk.injEq, hr, hc,
    true_and]
  omega

theorem hexBoard_adjacent (L : Nat) (tags : List Int) (u v : Int) :
    EmbGraph.adjacent (hexBoard L tags) u v =
      (getAtI (getAtI (hexConMatrix L) u []) v ⟨false, 0⟩).b := by
  simp [EmbGraph.adjacent, hexBoard]

theorem hexBoard_get_edge_value (L : Nat) (tags : List Int) (u v : Int) :
    EmbGraph.get_edge_value (hexBoard L tags) u v =
      (if (getAtI (getAtI (hexConMatrix L) u []) v ⟨false, 0⟩).b then
        (getAtI (getAtI (hexConMatrix L) u []) v ⟨false, 0⟩).v else 0) := by
  simp [EmbGraph.get_edge_value, hexBoard]

theorem hexConMatrix_cell_symm (L u v : Nat) (hL : 2 ≤ L) (hu : u < L * L) (hv : v < L * L) :
    getAtI (getAtI (hexConMatrix L) (Int.ofNat u) []) (Int.ofNat v) ⟨false, 0⟩ =
      getAtI (getAtI (hexConMatrix L) (Int.ofNat v) []) (Int.ofNat u) ⟨false, 0⟩ := by
  rw [hexConMatrix_cell, hexConMatrix_cell]
  have hmemIff : (u, v) ∈ hexWrites L ↔ (v, u) ∈ hexWrites L := by
    rw [mem_hexWrites, mem_hexWrites, hexCaseNeighbors_symm L u v hL hu hv]
    simp [hu, hv]
  by_cases h : (u, v) ∈ hexWrites L
  · rw [if_pos ⟨h, hu, hv⟩, if_pos ⟨hmemIff.mp h, hv, hu⟩]
  · rw [if_neg (fun hc => h hc.1), if_neg (fun hc => h (hmemIff.mpr hc.1))]

/-- C7: on a Hex board of border length `L ≥ 2`, adjacency and edge costs are
symmetric, every existing edge has cost exactly `1`, and the adjacency answers
are unchanged by any `set_node_tag` call and identical on every tag state to
those of the freshly constructed blank board. -/
theorem c7_hex_symmetry (L : Nat) (hL : 2 ≤ L) (u v : Nat) (hu : u < L * L) (hv : v < L * L)
    (_huv : u ≠ v) :
    (EmbGraph.adjacent (hexBoardBlank L) (Int.ofNat u) (Int.ofNat v) =
      EmbGraph.adjacent (hexBoardBlank L) (Int.ofNat v) (Int.ofNat u)) ∧
    (EmbGraph.get_edge_value (hexBoardBlank L) (Int.ofNat u) (Int.ofNat v) =
      EmbGraph.get_edge_value (hexBoardBlank L) (Int.ofNat v) (Int.ofNat u)) ∧
    (EmbGraph.adjacent (hexBoardBlank L) (Int.ofNat u) (Int.ofNat v) = true →
      EmbGraph.get_edge_value (hexBoardBlank L) (Int.ofNat u) (Int.ofNat v) = 1) ∧
    (∀ (tags : List Int) (node val : Int),
      EmbGraph.adjacent (EmbGraph.set_node_tag (hexBoard L tags) node val)
          (Int.ofNat u) (Int.ofNat v) =
        EmbGraph.adjacent (hexBoard L tags) (Int.ofNat u) (Int.ofNat v) ∧
      EmbGraph.adjacent (hexBoard L tags) (Int.ofNat u) (Int.ofNat v) =
        EmbGraph.adjacent (hexBoardBlank L) (Int.ofNat u) (Int.ofNat v)) := by
  have hsym := hexConMatrix_cell_symm L u v hL hu hv
  refine ⟨?_, ?_, ?_, ?_⟩
  · rw [hexBoardBlank, hexBoard_adjacent, hexBoard_adjacent, hsym]
  · rw [hexBoardBlank, hexBoard_get_edge_value, hexBoard_get_edge_value, hsym]
  · intro hadj
    rw [hexBoardBlank, hexBoard_adjacent] at hadj
    rw [hexBoardBlank, hexBoard_get_edge_value]
    rw [hexConMatrix_cell] at hadj ⊢
    by_cases h : (u, v) ∈ hexWrites L ∧ u < L * L ∧ v < L * L
    · rw [if_pos h]
      rfl
    · rw [if_neg h] at hadj
      simp at hadj
  · intro tags node val
    constructor
    · rw [hexBoard_adjacent]
      have : EmbGraph.set_node_tag (hexBoard L tags) node val =
          hexBoard L (setAtI (if tags.length = 0 then List.replicate (L * L) 0 else tags)
            node val) := by
        simp [EmbGraph.set_node_tag, hexBoard]
      rw [this, hexBoard_adjacent]
    · rw [hexBoardBlank, hexBoard_adjacent, hexBoard_adjacent]

/-- Witness for C7 at the concrete board `L = 2`, nodes `0` and `1`. -/
theorem c7_witness :
    (2 ≤ 2 ∧ 0 < 2 * 2 ∧ 1 < 2 * 2 ∧ (0 : Nat) ≠ 1) ∧
    ((EmbGraph.adjacent (hexBoardBlank 2) (Int.ofNat 0) (Int.ofNat 1) =
        EmbGraph.adjacent (hexBoardBlank 2) (Int.ofNat 1) (Int.ofNat 0)) ∧
      (EmbGraph.get_edge_value (hexBoardBlank 2) (Int.ofNat 0) (Int.ofNat 1) =
        EmbGraph.get_edge_value (hexBoardBlank 2) (Int.ofNat 1) (Int.ofNat 0)) ∧
      (EmbGraph.adjacent (hexBoardBlank 2) (Int.ofNat 0) (Int.ofNat 1) = true →
        EmbGraph.get_edge_value (hexBoardBlank 2) (Int.ofNat 0) (Int.ofNat 1) = 1) ∧
      (∀ (tags : List Int) (node val : Int),
        EmbGraph.adjacent (EmbGraph.set_node_tag (hexBoard 2 tags) node val)
            (Int.ofNat 0) (Int.ofNat 1) =
          EmbGraph.adjacent (hexBoard 2 tags) (Int.ofNat 0) (Int.ofNat 1) ∧
        EmbGraph.adjacent (hexBoard 2 tags) (Int.ofNat 0) (Int.ofNat 1) =
          EmbGraph.adjacent (hexBoardBlank 2) (Int.ofNat 0) (Int.ofNat 1))) :=
  ⟨⟨le_rfl, by decide, by decide, by decide⟩,
    c7_hex_symmetry 2 le_rfl 0 1 (by decide) (by decide) (by decide)⟩

/-! ## Queue helper behaviour under the loop invariants -/

theorem triadInRef_eq_false {x : Triad} {ref : List Triad} (h : ¬ x ∈ ref) :
    triadInRef x ref = false := by
  simp only [triadInRef, List.any_eq_false]
  intro r hr
  simp only [decide_eq_true_eq]
  intro hrx
  exact h (hrx ▸ hr)

theorem pqTheresAnyNotInRef_of_disjoint {q ref : List Triad}
    (h : ∀ x ∈ ref, ¬ x ∈ q) : pqTheresAnyNotInRef q ref = true := by
  simp only [pqTheresAnyNotInRef, Bool.not_eq_true', List.any_eq_false]
  intro e he
  rw [triadInRef_eq_false (fun hmem => h e hmem he)]
  exact Bool.false_ne_true

theorem pqTheresAnyNotInRef_of_mem {q ref : List Triad} {x : Triad}
    (hq : x ∈ q) (hr : x ∈ ref) : pqTheresAnyNotInRef q ref = false := by
  simp only [pqTheresAnyNotInRef, Bool.not_eq_false', List.any_eq_true]
  exact ⟨x, hq, by simp only [triadInRef, List.any_eq_true]; exact ⟨x, hr, by simp⟩⟩

theorem pqGetFirstNotInRef_head {h : Triad} {rest ref : List Triad}
    (hnotin : ¬ h ∈ ref) : pqGetFirstNotInRef (h :: rest) ref = h := by
  unfold pqGetFirstNotInRef
  by_cases hr : ref.length = 0
  · rw [if_pos ⟨by simp, hr⟩]
    rfl
  · rw [if_neg (by simp [hr])]
    unfold pqGetFirstLoop
    rw [triadInRef_eq_false hnotin]
    rfl

theorem pqGetAndDeleteNotInRef_head {h : Triad} {rest ref : List Triad}
    (hnotin : ¬ h ∈ ref) : pqGetAndDeleteNotInRef (h :: rest) ref = (h, rest) := by
  unfold pqGetAndDeleteNotInRef
  by_cases hr : ref.length = 0
  · rw [if_pos ⟨by simp, hr⟩]
    rfl
  · rw [if_neg (by simp [hr])]
    unfold pqGetAndDeleteLoop
    rw [triadInRef_eq_false hnotin]
    rfl

theorem mem_pqUpdate {q : List Triad} {ne a : Triad} (h : a ∈ pqUpdate q ne) :
    a = ne ∨ a ∈ q := by
  rcases mem_pqInsert.mp (by simpa [pqUpdate] using h) with h1 | h1
  · exact Or.inl h1
  · exact Or.inr (mem_pqUpdateLoop _ _ h1)

theorem pqUpdate_covers {q : List Triad} {ne : Triad} {d : Int}
    (h : ∃ e ∈ q, e.v2 = d) : ∃ e ∈ pqUpdate q ne, e.v2 = d := by
  by_cases hd : d = ne.v2
  · exact ⟨ne, by simpa [pqUpdate] using mem_pqInsert.mpr (Or.inl rfl), hd.symm⟩
  · rcases h with ⟨e, he, hed⟩
    refine ⟨e, ?_, hed⟩
    have : e ∈ pqUpdateLoop ne.v2 q.length 0 q :=
      mem_pqUpdateLoop_of_ne he (fun hc => hd (hed ▸ hc : d = ne.v2)) _ _
    simpa [pqUpdate] using mem_pqInsert.mpr (Or.inr this)

theorem destUnique_count {q : List Triad} (h : destUnique q) (d : Int) :
    (q.filter (fun e => e.v2 = d)).length ≤ 1 := by
  induction q with
  | nil => simp
  | cons e rest ih =>
      rcases List.pairwise_cons.mp h with ⟨he, hrest⟩
      by_cases hed : e.v2 = d
      · have hnone : rest.filter (fun e => e.v2 = d) = [] := by
          rw [List.filter_eq_nil_iff]
          intro x hx
          simp only [decide_eq_true_eq]
          intro hxd
          exact he x hx (by rw [hed, hxd])
        simp [List.filter_cons, hed, hnone]
      · simpa [List.filter_cons, hed] using ih hrest

theorem removeFirstWithDest_sublist (q : List Triad) (d : Int) :
    (removeFirstWithDest q d).Sublist q := by
  induction q with
  | nil => simp [removeFirstWithDest]
  | cons e rest ih =>
      by_cases he : e.v2 = d
      · simp only [removeFirstWithDest, if_pos he]
        exact (List.sublist_cons_self e rest)
      · simp only [removeFirstWithDest, if_neg he]
        exact ih.cons₂ e

theorem pqUpdate_destUnique {q : List Triad} {ne : Triad} (h : destUnique q) :
    destUnique (pqUpdate q ne) := by
  have hloop : pqUpdateLoop ne.v2 q.length 0 q = removeFirstWithDest q ne.v2 :=
    pqUpdateLoop_of_at_most_one q ne.v2 (destUnique_count h ne.v2)
  have hq' : destUnique (removeFirstWithDest q ne.v2) :=
    List.Pairwise.sublist (removeFirstWithDest_sublist q ne.v2) h
  have hnone : ∀ x ∈ removeFirstWithDest q ne.v2, x.v2 ≠ ne.v2 := by
    intro x hx hxd
    have hxf : x ∈ (removeFirstWithDest q ne.v2).filter (fun e => e.v2 = ne.v2) :=
      List.mem_filter.mpr ⟨hx, by simp [hxd]⟩
    rw [filter_removeFirstWithDest] at hxf
    have hle := destUnique_count h ne.v2
    have htl : ((q.filter (fun e => e.v2 = ne.v2)).tail).length = 0 := by
      have := List.length_tail (q.filter (fun e => e.v2 = ne.v2))
      omega
    rw [List.length_eq_zero] at htl
    simp [htl] at hxf
  rw [pqUpdate, hloop, pqInsert_eq_append]
  unfold destUnique
  rw [List.pairwise_middle (fun {x y} hab hc => hab hc.symm)]
  refine List.pairwise_cons.mpr ⟨?_, ?_⟩
  · intro b hb
    have hbq : b ∈ removeFirstWithDest q ne.v2 := by
      rcases List.mem_append.mp hb with h1 | h1
      · rw [← List.takeWhile_append_dropWhile
          (p := fun e => decide (e.v3 < ne.v3)) (l := removeFirstWithDest q ne.v2)]
        exact List.mem_append_left _ h1
      · rw [← List.takeWhile_append_dropWhile
          (p := fun e => decide (e.v3 < ne.v3)) (l := removeFirstWithDest q ne.v2)]
        exact List.mem_append_right _ h1
    exact fun hc => hnone b hbq hc.symm
  · rw [List.takeWhile_append_dropWhile]
    exact hq'

theorem pqContainsV1V2_iff {q : List Triad} {a b : Int} :
    pqContainsV1V2 q a b = true ↔ ∃ e ∈ q, e.v1 = a ∧ e.v2 = b := by
  simp [pqContainsV1V2]

theorem pqImproves_false {q : List Triad} {ne : Triad} (h : pqImproves q ne = false) :
    ∃ e ∈ q, e.v2 = ne.v2 ∧ e.v3 ≤ ne.v3 := by
  simpa [pqImproves] using h

theorem expandFold_spec (B open_set : List Int) (cur : Int) (tent : List Int)
    (nbrs : List IntPair) :
    ∀ q : List Triad,
      (∀ e ∈ expandFold B open_set cur tent nbrs q,
        e ∈ q ∨ (e.v1 = cur ∧ e.v2 ∈ open_set ∧ ∃ c : Int, (⟨e.v2, c⟩ : IntPair) ∈ nbrs)) ∧
      (∀ d : Int, (∃ e ∈ q, e.v2 = d) →
        ∃ e ∈ expandFold B open_set cur tent nbrs q, e.v2 = d) ∧
      (∀ nb ∈ nbrs, nb.v1 ∈ open_set → ¬ nb.v1 ∈ B →
        ∃ e ∈ expandFold B open_set cur tent nbrs q, e.v2 = nb.v1) ∧
      (destUnique q → destUnique (expandFold B open_set cur tent nbrs q)) := by
  induction nbrs with
  | nil =>
      intro q
      refine ⟨fun e he => Or.inl he, fun d hd => hd, ?_, fun h => h⟩
      intro nb hnb
      simp at hnb
  | cons nb rest ih =>
      intro q
      have hunf : expandFold B open_set cur tent (nb :: rest) q =
          expandFold B open_set cur tent rest
            (if open_set.contains nb.v1 ∧ ¬ B.contains nb.v1 then
              (if ¬ pqContainsV1V2 q cur nb.v1 ∧
                  pqImproves q ⟨cur, nb.v1, nb.v2 + getAtI tent cur 0⟩ then
                pqUpdate q ⟨cur, nb.v1, nb.v2 + getAtI tent cur 0⟩
              else q)
            else q) := rfl
      set q1 := (if open_set.contains nb.v1 ∧ ¬ B.contains nb.v1 then
              (if ¬ pqContainsV1V2 q cur nb.v1 ∧
                  pqImproves q ⟨cur, nb.v1, nb.v2 + getAtI tent cur 0⟩ then
                pqUpdate q ⟨cur, nb.v1, nb.v2 + getAtI tent cur 0⟩
              else q)
            else q) with hq1
      have hs1 : ∀ e ∈ q1, e ∈ q ∨ (e.v1 = cur ∧ e.v2 ∈ open_set ∧ e.v2 = nb.v1) := by
        intro e he
        rw [hq1] at he
        split_ifs at he with hg hi
        · rcases mem_pqUpdate he with h1 | h1
          · refine Or.inr ⟨by rw [h1], ?_, by rw [h1]⟩
            rw [h1]
            exact List.mem_of_elem_eq_true hg.1
          · exact Or.inl h1
        · exact Or.inl he
        · exact Or.inl he
      have hs2 : ∀ d : Int, (∃ e ∈ q, e.v2 = d) → ∃ e ∈ q1, e.v2 = d := by
        intro d hd
        rw [hq1]
        split_ifs with hg hi
        · exact pqUpdate_covers hd
        · exact hd
        · exact hd
      have hs3 : nb.v1 ∈ open_set → ¬ nb.v1 ∈ B → ∃ e ∈ q1, e.v2 = nb.v1 := by
        intro hop hnB
        rw [hq1]
        rw [if_pos ⟨List.elem_eq_true_of_mem hop, by
          simp only [List.contains, Bool.not_eq_true]
          rw [← Bool.not_eq_true]
          intro hc
          exact hnB (List.mem_of_elem_eq_true hc)⟩]
        split_ifs with hi
        · exact ⟨⟨cur, nb.v1, nb.v2 + getAtI tent cur 0⟩, by
            simpa [pqUpdate] using mem_pqInsert.mpr (Or.inl rfl), rfl⟩
        · rw [not_and_or] at hi
          rcases hi with hi | hi
          · rw [not_not] at hi
            rcases pqContainsV1V2_iff.mp hi with ⟨e, he, _, he2⟩
            exact ⟨e, he, he2⟩
          · rcases pqImproves_false (Bool.not_eq_true _ ▸ hi) with ⟨e, he, he2, _⟩
            exact ⟨e, he, he2⟩
      have hs4 : destUnique q → destUnique q1 := by
        intro hdu
        rw [hq1]
        split_ifs with hg hi
        · exact pqUpdate_destUnique hdu
        · exact hdu
        · exact hdu
      rcases ih q1 with ⟨ih1, ih2, ih3, ih4⟩
      rw [hunf]
      refine ⟨?_, ?_, ?_, ?_⟩
      · intro e he
        rcases ih1 e he with h1 | h1
        · rcases hs1 e h1 with h2 | h2
          · exact Or.inl h2
          · refine Or.inr ⟨h2.1, h2.2.1, ⟨nb.v2, ?_⟩⟩
            rw [h2.2.2]
            exact List.mem_cons_self nb rest
        · exact Or.inr ⟨h1.1, h1.2.1, h1.2.2.imp (fun c hc => List.mem_cons_of_mem nb hc)⟩
      · intro d hd
        exact ih2 d (hs2 d hd)
      · intro nb' hnb' hop hnB
        rcases List.mem_cons.mp hnb' with h1 | h1
        · subst h1
          exact ih2 nb'.v1 (hs3 hop hnB)
        · exact ih3 nb' h1 hop hnB
      · intro hdu
        exact ih4 (hs4 hdu)

theorem neighbors_run_eq (g : EmbGraph) (u : Int) :
    EmbGraph.neighbors_run g u = (EmbGraph.neighbors g u, g) := by
  unfold EmbGraph.neighbors_run EmbGraph.neighbors
  split_ifs <;> rfl

theorem eraseFirstMove_of_mem {l : List Int} {cur : Int} (closed : List Int) (h : cur ∈ l) :
    eraseFirstMove l cur closed = (l.erase cur, closed ++ [cur]) := by
  induction l with
  | nil => exact absurd h (List.not_mem_nil cur)
  | cons o rest ih =>
      by_cases ho : o = cur
      · subst ho
        simp [eraseFirstMove]
      · have hr : cur ∈ rest := by
          rcases List.mem_cons.mp h with h1 | h1
          · exact absurd h1.symm ho
          · exact h1
        rw [List.erase_cons_tail (by simpa using ho)]
        simp only [eraseFirstMove, if_neg ho, ih hr]

theorem seekStep_spec (g : EmbGraph) (B : List Int) (s t : Int) (st : SPState)
    (hw : WFNbrs g) (hinv : SeekInv g B s t st) :
    (seekStep g B st).2 = g ∧
      ((SeekInv g B s t (seekStep g B st).1 ∧
        (seekStep g B st).1.open_set.length < st.open_set.length) ∨
       SeekDone g B s t (seekStep g B st).1) := by
  unfold SeekInv at hinv
  obtain ⟨hFrom, hTo, hTerm, hPE, hVis, hCur, hSrc, hTgt, hOpen, hOnd, hOC, hCnd, hCrng,
    hCReach, hDich, hQ, hQdu, hUQ, hR1, hR2, hClo, hUt⟩ := hinv
  obtain ⟨hE1, hE2, hE3, hE4⟩ := expandFold_spec B st.open_set st.currentNode
    st.tentative_costs (EmbGraph.neighbors g st.currentNode) st.queue
  unfold seekStep
  rw [neighbors_run_eq]
  dsimp only
  set q1 := expandFold B st.open_set st.currentNode st.tentative_costs
    (EmbGraph.neighbors g st.currentNode) st.queue with hq1def
  have hQmem : ∀ e ∈ q1, e.v1 ∈ st.closed_set ∧ edgeTo g e.v1 e.v2 ∧ e.v2 ∈ st.open_set := by
    intro e he
    rcases hE1 e he with h1 | h1
    · exact hQ e h1
    · refine ⟨h1.1 ▸ hCur, ?_, h1.2.1⟩
      rcases h1.2.2 with ⟨c, hc⟩
      exact ⟨c, by rw [h1.1]; exact hc⟩
  have hQdu1 : destUnique q1 := hE4 hQdu
  have hUQ1 : ∀ x ∈ st.used_queue_elements, ¬ x ∈ q1 := by
    intro x hx hxq
    rcases hE1 x hxq with h1 | h1
    · exact hUQ x hx h1
    · exact hOC x.v2 h1.2.1 ((hR1 x hx).2 (hUt x hx)).1
  by_cases hq1e : q1 = []
  · -- the queue is empty after the relaxation phase: the loop terminates
    rw [if_neg (by simp [hq1e])]
    have hCloseAll : ∀ u ∈ st.closed_set, ∀ p ∈ EmbGraph.neighbors g u,
        ¬ p.v1 ∈ B → p.v1 ∈ st.closed_set := by
      intro u hu p hp hpB
      rcases hw u p hp with ⟨hp0, hpV⟩
      by_cases hucur : u = st.currentNode
      · subst hucur
        rcases hDich p.v1 hp0 hpV hpB with hpo | hpc
        · rcases hE3 p hp hpo hpB with ⟨e, he, _⟩
          rw [hq1e] at he
          exact absurd he (List.not_mem_nil e)
        · exact hpc
      · rcases hClo u hu hucur p hp hpB with h1 | h1
        · exact h1
        · rcases hE2 p.v1 (by rcases h1 with ⟨e, he, hev⟩; exact ⟨e, he, hev⟩) with ⟨e, he, _⟩
          rw [hq1e] at he
          exact absurd he (List.not_mem_nil e)
    have hReachClosed : ∀ v : Int, ReachAvoid g B s v → v ∈ st.closed_set := by
      intro v hv
      induction hv with
      | refl h => exact hSrc
      | step hr he hB ih =>
          rcases he with ⟨c, hc⟩
          exact hCloseAll _ ih _ hc hB
    refine ⟨rfl, Or.inr ?_⟩
    unfold SeekDone
    dsimp only
    refine ⟨hFrom, hTo, rfl, ?_, ?_, ?_, hSrc, hTgt, hCnd, hCrng, hR1, hR2, ?_⟩
    · intro hpe
      rw [hVis] at hpe
      exact absurd hpe Bool.false_ne_true
    · intro _ hst hR
      exact hTgt hst (hReachClosed t hR)
    · intro _
      exact hVis
    · intro hpe
      rw [hVis] at hpe
      exact absurd hpe Bool.false_ne_true
  · -- at least one queue entry: the loop pops the head
    obtain ⟨e0, q1t, hq1c⟩ := List.exists_cons_of_ne_nil hq1e
    have he0 : e0 ∈ q1 := hq1c ▸ List.mem_cons_self e0 q1t
    have he0n : ¬ e0 ∈ st.used_queue_elements := fun hx => hUQ1 e0 hx he0
    obtain ⟨hc0, hedge0, ho0⟩ := hQmem e0 he0
    have hB0 : ¬ e0.v2 ∈ B := (hOpen e0.v2 ho0).2.2.1
    have hhead : ∀ b ∈ q1t, e0.v2 ≠ b.v2 := by
      have := hQdu1
      rw [hq1c] at this
      exact (List.pairwise_cons.mp this).1
    rw [if_pos ⟨by rw [hq1c]; simp, pqTheresAnyNotInRef_of_disjoint hUQ1⟩]
    have hfirst : pqGetFirstNotInRef q1 st.used_queue_elements = e0 := by
      rw [hq1c]
      exact pqGetFirstNotInRef_head he0n
    rw [hfirst]
    by_cases ht2 : e0.v2 = st.nodeTo
    · -- the head reaches the target: the loop terminates with a path
      rw [if_neg (fun h => h ht2)]
      rw [hTo] at ht2
      rw [if_neg (by
        rw [pqTheresAnyNotInRef_of_mem he0
          (List.mem_append_right _ (List.mem_singleton_self e0))]
        simp)]
      refine ⟨rfl, Or.inr ?_⟩
      unfold SeekDone
      dsimp only
      refine ⟨hFrom, hTo, rfl, ?_, ?_, ?_, hSrc, hTgt, hCnd, hCrng, ?_, ?_, ?_⟩
      · intro _
        rw [← ht2]
        exact ReachAvoid.step (hCReach e0.v1 hc0) hedge0 hB0
      · intro h
        exact absurd h (by simp)
      · intro hst
        exact absurd (ht2.trans hst.symm) (hOpen e0.v2 ho0).2.2.2
      · intro x hx
        rcases List.mem_append.mp hx with h1 | h1
        · exact hR1 x h1
        · rw [List.mem_singleton.mp h1]
          exact ⟨hc0, fun hxt => absurd ht2 hxt⟩
      · intro v hv hvs
        rcases hR2 v hv hvs with ⟨x, hx, hxv⟩
        exact ⟨x, List.mem_append_left _ hx, hxv⟩
      · intro _
        exact ⟨e0, List.mem_append_right _ (List.mem_singleton_self e0), ht2⟩
    · -- ordinary move: the head's destination leaves the open set
      rw [if_pos ht2]
      rw [hTo] at ht2
      have hgd : pqGetAndDeleteNotInRef q1 st.used_queue_elements = (e0, q1t) := by
        rw [hq1c]
        exact pqGetAndDeleteNotInRef_head he0n
      rw [hgd]
      dsimp only
      rw [eraseFirstMove_of_mem st.closed_set ho0]
      dsimp only
      have he0nc : ¬ e0.v2 ∈ st.closed_set := hOC e0.v2 ho0
      refine ⟨rfl, Or.inl ⟨?_, ?_⟩⟩
      · unfold SeekInv
        dsimp only
        refine ⟨hFrom, hTo, hTerm, hPE, hVis, ?_, ?_, ?_, ?_, ?_, ?_, ?_, ?_, ?_, ?_, ?_, ?_,
          ?_, ?_, ?_, ?_, ?_⟩
        · exact List.mem_append_right _ (List.mem_singleton_self _)
        · exact List.mem_append_left _ hSrc
        · intro hst hmem
          rcases List.mem_append.mp hmem with h1 | h1
          · exact hTgt hst h1
          · exact ht2 ((List.mem_singleton.mp h1).symm)
        · intro v hv
          exact hOpen v (List.mem_of_mem_erase hv)
        · exact List.Nodup.erase _ hOnd
        · intro v hv hmem
          rcases (List.Nodup.mem_erase_iff hOnd).mp hv with ⟨hne, hvo⟩
          rcases List.mem_append.mp hmem with h1 | h1
          · exact hOC v hvo h1
          · exact hne (List.mem_singleton.mp h1)
        · rw [List.nodup_append]
          refine ⟨hCnd, List.nodup_singleton _, fun a ha hb => ?_⟩
          rw [List.mem_singleton] at hb
          subst hb
          exact he0nc ha
        · intro v hv
          rcases List.mem_append.mp hv with h1 | h1
          · exact hCrng v h1
          · rw [List.mem_singleton.mp h1]
            exact ⟨(hOpen e0.v2 ho0).1, (hOpen e0.v2 ho0).2.1⟩
        · intro v hv
          rcases List.mem_append.mp hv with h1 | h1
          · exact hCReach v h1
          · rw [List.mem_singleton.mp h1]
            exact ReachAvoid.step (hCReach e0.v1 hc0) hedge0 hB0
        · intro v h0 hV hB
          rcases hDich v h0 hV hB with hvo | hvc
          · by_cases hve : v = e0.v2
            · exact Or.inr (List.mem_append_right _ (by rw [hve]; exact List.mem_singleton_self _))
            · exact Or.inl ((List.Nodup.mem_erase_iff hOnd).mpr ⟨hve, hvo⟩)
          · exact Or.inr (List.mem_append_left _ hvc)
        · intro e he
          have heq1 : e ∈ q1 := hq1c ▸ List.mem_cons_of_mem e0 he
          obtain ⟨h1, h2, h3⟩ := hQmem e heq1
          refine ⟨List.mem_append_left _ h1, h2,
            (List.Nodup.mem_erase_iff hOnd).mpr ⟨fun hv => hhead e he hv.symm, h3⟩⟩
        · have := hQdu1
          rw [hq1c] at this
          exact (List.pairwise_cons.mp this).2
        · intro x hx hxq
          rcases List.mem_append.mp hx with h1 | h1
          · exact hUQ1 x h1 (hq1c ▸ List.mem_cons_of_mem e0 hxq)
          · rw [List.mem_singleton.mp h1] at hxq
            exact hhead e0 hxq rfl
        · intro x hx
          rcases List.mem_append.mp hx with h1 | h1
          · obtain ⟨hx1, hx2⟩ := hR1 x h1
            refine ⟨List.mem_append_left _ hx1, fun hxt => ?_⟩
            obtain ⟨hxc2, hidx⟩ := hx2 hxt
            refine ⟨List.mem_append_left _ hxc2, ?_⟩
            rw [List.indexOf_append_of_mem hx1, List.indexOf_append_of_mem hxc2]
            exact hidx
          · rw [List.mem_singleton.mp h1]
            refine ⟨List.mem_append_left _ hc0,
              fun _ => ⟨List.mem_append_right _ (List.mem_singleton_self _), ?_⟩⟩
            rw [List.indexOf_append_of_mem hc0, List.indexOf_append_of_not_mem he0nc]
            have hlt := List.indexOf_lt_length.mpr hc0
            simp only [List.indexOf_cons_self]
            omega
        · intro v hv hvs
          rcases List.mem_append.mp hv with h1 | h1
          · rcases hR2 v h1 hvs with ⟨x, hx, hxv⟩
            exact ⟨x, List.mem_append_left _ hx, hxv⟩
          · exact ⟨e0, List.mem_append_right _ (List.mem_singleton_self _),
              (List.mem_singleton.mp h1).symm⟩
        · intro u hu hune p hp hpB
          have hSplitQ : (∃ e ∈ q1, e.v2 = p.v1) →
              p.v1 ∈ st.closed_set ++ [e0.v2] ∨ ∃ e ∈ q1t, e.v2 = p.v1 := by
            rintro ⟨e, he, hev⟩
            rw [hq1c] at he
            rcases List.mem_cons.mp he with h2 | h2
            · subst h2
              exact Or.inl (List.mem_append_right _ (by rw [← hev]; exact List.mem_singleton_self _))
            · exact Or.inr ⟨e, h2, hev⟩
          rcases List.mem_append.mp hu with h1 | h1
          · by_cases hcu : u = st.currentNode
            · subst hcu
              rcases hw st.currentNode p hp with ⟨hp0, hpV⟩
              rcases hDich p.v1 hp0 hpV hpB with hpo | hpc
              · exact hSplitQ (hE3 p hp hpo hpB)
              · exact Or.inl (List.mem_append_left _ hpc)
            · rcases hClo u h1 hcu p hp hpB with h2 | h2
              · exact Or.inl (List.mem_append_left _ h2)
              · exact hSplitQ (hE2 p.v1 h2)
          · exact absurd (List.mem_singleton.mp h1) hune
        · intro x hx
          rcases List.mem_append.mp hx with h1 | h1
          · exact hUt x h1
          · rw [List.mem_singleton.mp h1]
            exact ht2
      · dsimp only
        rw [List.length_erase_of_mem ho0]
        have := List.length_pos_of_mem ho0
        omega

theorem seekStep_graph (g : EmbGraph) (banned : List Int) (st : SPState) :
    (seekStep g banned st).2 = g := by
  unfold seekStep
  rw [neighbors_run_eq]
  dsimp only
  split_ifs <;> rfl

theorem seekStep_untouched (g : EmbGraph) (banned : List Int) (st : SPState) :
    (seekStep g banned st).1.shortest_path = st.shortest_path ∧
    (seekStep g banned st).1.shortest_path_cost = st.shortest_path_cost ∧
    (seekStep g banned st).1.raw_shortest_path = st.raw_shortest_path ∧
    (seekStep g banned st).1.path_was_seeked = st.path_was_seeked := by
  unfold seekStep
  rw [neighbors_run_eq]
  dsimp only
  split_ifs <;> exact ⟨rfl, rfl, rfl, rfl⟩

theorem seekLoop_graph (banned : List Int) :
    ∀ (fuel : Nat) (g : EmbGraph) (st : SPState), (seekLoop banned fuel g st).2 = g := by
  intro fuel
  induction fuel with
  | zero => intro g st; rfl
  | succ n ih =>
      intro g st
      have hunf : seekLoop banned (n + 1) g st =
          if st.terminated = true then (st, g)
          else seekLoop banned n (seekStep g banned st).2 (seekStep g banned st).1 := rfl
      rw [hunf]
      split_ifs with h
      · rfl
      · rw [seekStep_graph]
        exact ih g (seekStep g banned st).1

theorem seekLoop_untouched (banned : List Int) :
    ∀ (fuel : Nat) (g : EmbGraph) (st : SPState),
      (seekLoop banned fuel g st).1.shortest_path = st.shortest_path ∧
      (seekLoop banned fuel g st).1.shortest_path_cost = st.shortest_path_cost ∧
      (seekLoop banned fuel g st).1.raw_shortest_path = st.raw_shortest_path ∧
      (seekLoop banned fuel g st).1.path_was_seeked = st.path_was_seeked := by
  intro fuel
  induction fuel with
  | zero => intro g st; exact ⟨rfl, rfl, rfl, rfl⟩
  | succ n ih =>
      intro g st
      have hunf : seekLoop banned (n + 1) g st =
          if st.terminated = true then (st, g)
          else seekLoop banned n (seekStep g banned st).2 (seekStep g banned st).1 := rfl
      rw [hunf]
      split_ifs with h
      · exact ⟨rfl, rfl, rfl, rfl⟩
      · obtain ⟨h1, h2, h3, h4⟩ := ih (seekStep g banned st).2 (seekStep g banned st).1
        obtain ⟨g1, g2, g3, g4⟩ := seekStep_untouched g banned st
        exact ⟨h1.trans g1, h2.trans g2, h3.trans g3, h4.trans g4⟩

theorem seekLoop_of_terminated (banned : List Int) (fuel : Nat) (g : EmbGraph) (st : SPState)
    (h : st.terminated = true) : seekLoop banned fuel g st = (st, g) := by
  cases fuel with
  | zero => rfl
  | succ n =>
      have hunf : seekLoop banned (n + 1) g st =
          if st.terminated = true then (st, g)
          else seekLoop banned n (seekStep g banned st).2 (seekStep g banned st).1 := rfl
      rw [hunf, if_pos h]

theorem seekLoop_spec (banned : List Int) (g : EmbGraph) (s t : Int) (hw : WFNbrs g) :
    ∀ (fuel : Nat) (st : SPState), SeekInv g banned s t st → st.open_set.length < fuel →
      (seekLoop banned fuel g st).2 = g ∧
      SeekDone g banned s t (seekLoop banned fuel g st).1 := by
  intro fuel
  induction fuel with
  | zero => intro st _ hlen; exact absurd hlen (Nat.not_lt_zero _)
  | succ n ih =>
      intro st hinv hlen
      have hterm : st.terminated = false := by
        unfold SeekInv at hinv
        exact hinv.2.2.1
      have hunf : seekLoop banned (n + 1) g st =
          if st.terminated = true then (st, g)
          else seekLoop banned n (seekStep g banned st).2 (seekStep g banned st).1 := rfl
      rw [hunf, if_neg (by rw [hterm]; exact Bool.false_ne_true)]
      obtain ⟨hg, hrest⟩ := seekStep_spec g banned s t st hw hinv
      rw [hg]
      rcases hrest with ⟨hinv1, hlt⟩ | hdone
      · exact ih (seekStep g banned st).1 hinv1 (by omega)
      · have hterm1 : (seekStep g banned st).1.terminated = true := by
          unfold SeekDone at hdone
          exact hdone.2.2.1
        rw [seekLoop_of_terminated banned n g (seekStep g banned st).1 hterm1]
        exact ⟨rfl, hdone⟩

theorem mem_rangeInts {V : Nat} {v : Int} :
    v ∈ (List.range V).map (fun i => (Int.ofNat i)) ↔ 0 ≤ v ∧ v < (V : Int) := by
  simp only [List.mem_map, List.mem_range]
  constructor
  · rintro ⟨i, hi, rfl⟩
    rw [Int.ofNat_eq_natCast]
    omega
  · rintro ⟨h0, hV⟩
    refine ⟨v.toNat, by omega, ?_⟩
    rw [Int.ofNat_eq_natCast]
    omega

theorem rangeInts_nodup (V : Nat) :
    ((List.range V).map (fun i => (Int.ofNat i))).Nodup :=
  (List.nodup_range V).map (fun _ _ h => Int.ofNat.inj h)

theorem contains_iff {l : List Int} {v : Int} : l.contains v = true ↔ v ∈ l := by
  constructor
  · exact List.mem_of_elem_eq_true
  · exact List.elem_eq_true_of_mem

theorem ReachAvoid.source_not_banned {g : EmbGraph} {B : List Int} {s v : Int}
    (h : ReachAvoid g B s v) : ¬ s ∈ B := by
  induction h with
  | refl h => exact h
  | step _ _ _ ih => exact ih

theorem ReachAvoid.target_not_banned {g : EmbGraph} {B : List Int} {s v : Int}
    (h : ReachAvoid g B s v) : ¬ v ∈ B := by
  cases h with
  | refl h => exact h
  | step _ _ h => exact h

theorem bannedNodes_spec (g : EmbGraph) (avoidTags : List Int) (v : Int) :
    v ∈ bannedNodes g avoidTags ↔
      (0 ≤ v ∧ v < (g.V : Int)) ∧ ∃ b ∈ avoidTags, EmbGraph.get_node_tag g v = b := by
  unfold bannedNodes
  simp only [List.mem_filter, mem_rangeInts, List.any_eq_true, decide_eq_true_eq]

theorem SeekInv_init (g : EmbGraph) (B : List Int) (nf nt : Int)
    (h0f : 0 ≤ nf) (hVf : nf < (g.V : Int)) (hbf : ¬ nf ∈ B) :
    SeekInv g B nf nt
      { nodeFrom := nf, nodeTo := nt, currentNode := nf, terminated := false
        path_was_seeked := false, path_exists := false, nodeTo_was_visited := false
        open_set := ((List.range g.V).map (fun i => (Int.ofNat i))).filter
          (fun i => ¬ B.contains i ∧ i ≠ nf)
        closed_set := ((List.range g.V).map (fun i => (Int.ofNat i))).filter
          (fun i => ¬ B.contains i ∧ i = nf)
        tentative_costs := (List.range g.V).map (fun i => if (Int.ofNat i) ≠ nf then intMax else 0)
        neighbors := [], queue := [], last_top_of_queue := ⟨0, 0, 0⟩
        used_queue_elements := [], shortest_path := [], shortest_path_cost := intMax
        raw_shortest_path := [] } := by
  have memO : ∀ v : Int,
      v ∈ ((List.range g.V).map (fun i => (Int.ofNat i))).filter
        (fun i => ¬ B.contains i ∧ i ≠ nf) ↔
      (0 ≤ v ∧ v < (g.V : Int)) ∧ ¬ v ∈ B ∧ v ≠ nf := by
    intro v
    simp only [List.mem_filter, mem_rangeInts, decide_eq_true_eq]
    constructor
    · rintro ⟨h1, h2, h3⟩
      exact ⟨h1, fun hm => h2 (contains_iff.mpr hm), h3⟩
    · rintro ⟨h1, h2, h3⟩
      exact ⟨h1, fun hc => h2 (contains_iff.mp hc), h3⟩
  have memC : ∀ v : Int,
      v ∈ ((List.range g.V).map (fun i => (Int.ofNat i))).filter
        (fun i => ¬ B.contains i ∧ i = nf) ↔
      (0 ≤ v ∧ v < (g.V : Int)) ∧ ¬ v ∈ B ∧ v = nf := by
    intro v
    simp only [List.mem_filter, mem_rangeInts, decide_eq_true_eq]
    constructor
    · rintro ⟨h1, h2, h3⟩
      exact ⟨h1, fun hm => h2 (contains_iff.mpr hm), h3⟩
    · rintro ⟨h1, h2, h3⟩
      exact ⟨h1, fun hc => h2 (contains_iff.mp hc), h3⟩
  unfold SeekInv
  dsimp only
  have hnfC : nf ∈ ((List.range g.V).map (fun i => (Int.ofNat i))).filter
      (fun i => ¬ B.contains i ∧ i = nf) := (memC nf).mpr ⟨⟨h0f, hVf⟩, hbf, rfl⟩
  refine ⟨rfl, rfl, rfl, rfl, rfl, hnfC, hnfC, ?_, ?_, ?_, ?_, ?_, ?_, ?_, ?_, ?_, ?_,
    ?_, ?_, ?_, ?_, ?_⟩
  · intro hne hmem
    exact hne ((memC nt).mp hmem).2.2.symm
  · intro v hv
    obtain ⟨⟨h1, h2⟩, h3, h4⟩ := (memO v).mp hv
    exact ⟨h1, h2, h3, h4⟩
  · exact (rangeInts_nodup g.V).filter _
  · intro v hv hc
    exact ((memO v).mp hv).2.2 ((memC v).mp hc).2.2
  · exact (rangeInts_nodup g.V).filter _
  · intro v hv
    exact ((memC v).mp hv).1
  · intro v hv
    rw [((memC v).mp hv).2.2]
    exact ReachAvoid.refl hbf
  · intro v h1 h2 h3
    by_cases hv : v = nf
    · exact Or.inr ((memC v).mpr ⟨⟨h1, h2⟩, h3, hv⟩)
    · exact Or.inl ((memO v).mpr ⟨⟨h1, h2⟩, h3, hv⟩)
  · intro e he
    exact absurd he (List.not_mem_nil e)
  · exact List.Pairwise.nil
  · intro x hx
    exact absurd hx (List.not_mem_nil x)
  · intro x hx
    exact absurd hx (List.not_mem_nil x)
  · intro v hv hvs
    exact absurd ((memC v).mp hv).2.2 hvs
  · intro u hu hune
    exact absurd ((memC u).mp hu).2.2 hune
  · intro x hx
    exact absurd hx (List.not_mem_nil x)

theorem seek_search_failfast (g : EmbGraph) (nf nt : Int) (avoidTags : List Int)
    (h : nf ∈ bannedNodes g avoidTags ∨ nt ∈ bannedNodes g avoidTags) :
    seek_search g nf nt avoidTags = (failFastState nf nt, g) := by
  unfold seek_search
  dsimp only
  rw [if_pos]
  rcases h with h | h
  · exact List.any_eq_true.mpr ⟨nf, h, by simp⟩
  · exact List.any_eq_true.mpr ⟨nt, h, by simp⟩

theorem seek_search_spec (g : EmbGraph) (nf nt : Int) (avoidTags : List Int)
    (hw : WFNbrs g) (h0f : 0 ≤ nf) (hVf : nf < (g.V : Int))
    (hbf : ¬ nf ∈ bannedNodes g avoidTags) (hbt : ¬ nt ∈ bannedNodes g avoidTags) :
    ∃ stF : SPState,
      seek_search g nf nt avoidTags = ({ stF with path_was_seeked := true }, g) ∧
      SeekDone g (bannedNodes g avoidTags) nf nt stF ∧
      stF.shortest_path = [] ∧ stF.shortest_path_cost = intMax := by
  unfold seek_search
  dsimp only
  rw [if_neg (by
    simp only [List.any_eq_true, decide_eq_true_eq]
    rintro ⟨n, hn, rfl | rfl⟩
    · exact hbf hn
    · exact hbt hn)]
  set st0 : SPState :=
      { nodeFrom := nf, nodeTo := nt, currentNode := nf, terminated := false
        path_was_seeked := false, path_exists := false, nodeTo_was_visited := false
        open_set := ((List.range g.V).map (fun i => (Int.ofNat i))).filter
          (fun i => ¬ (bannedNodes g avoidTags).contains i ∧ i ≠ nf)
        closed_set := ((List.range g.V).map (fun i => (Int.ofNat i))).filter
          (fun i => ¬ (bannedNodes g avoidTags).contains i ∧ i = nf)
        tentative_costs := (List.range g.V).map (fun i => if (Int.ofNat i) ≠ nf then intMax else 0)
        neighbors := [], queue := [], last_top_of_queue := ⟨0, 0, 0⟩
        used_queue_elements := [], shortest_path := [], shortest_path_cost := intMax
        raw_shortest_path := [] } with hst0
  have hinv0 : SeekInv g (bannedNodes g avoidTags) nf nt st0 :=
    SeekInv_init g (bannedNodes g avoidTags) nf nt h0f hVf hbf
  have hlen : st0.open_set.length < g.V + 2 := by
    have h1 := List.length_filter_le
      (fun i => decide (¬ (bannedNodes g avoidTags).contains i ∧ i ≠ nf))
      ((List.range g.V).map (fun i => (Int.ofNat i)))
    rw [List.length_map, List.length_range] at h1
    have h2 : st0.open_set = ((List.range g.V).map (fun i => (Int.ofNat i))).filter
        (fun i => ¬ (bannedNodes g avoidTags).contains i ∧ i ≠ nf) := by rw [hst0]
    rw [h2]
    omega
  obtain ⟨hg, hdone⟩ := seekLoop_spec (bannedNodes g avoidTags) g nf nt hw (g.V + 2) st0
    hinv0 hlen
  obtain ⟨hu1, hu2, _, _⟩ := seekLoop_untouched (bannedNodes g avoidTags) (g.V + 2) g st0
  refine ⟨(seekLoop (bannedNodes g avoidTags) (g.V + 2) g st0).1, ?_, hdone, hu1, hu2⟩
  rw [hg]

theorem length_le_of_nodup_range {l : List Int} {V : Nat} (hnd : l.Nodup)
    (hrng : ∀ v ∈ l, 0 ≤ v ∧ v < (V : Int)) : l.length ≤ V := by
  have h1 : (l.map Int.toNat).Nodup := by
    refine List.Nodup.map_on ?_ hnd
    intro a ha b hb hab
    have ha' := (hrng a ha).1
    have hb' := (hrng b hb).1
    omega
  have h4 : (l.map Int.toNat).toFinset ⊆ Finset.range V := by
    intro n hn
    rw [List.mem_toFinset] at hn
    rcases List.mem_map.mp hn with ⟨a, ha, rfl⟩
    have := hrng a ha
    exact Finset.mem_range.mpr (by omega)
  have h5 := Finset.card_le_card h4
  rw [Finset.card_range, List.toFinset_card_of_nodup h1, List.length_map] at h5
  exact h5

theorem bfs_sound (g : EmbGraph) (B : List Int) (s : Int) (hs : ¬ s ∈ B) :
    ∀ n : Nat, ∀ v ∈ bfsIter g B s n, ReachAvoid g B s v := by
  intro n
  induction n with
  | zero =>
      intro v hv
      have hv' : v ∈ ([s] : List Int) := hv
      rw [List.mem_singleton] at hv'
      subst hv'
      exact ReachAvoid.refl hs
  | succ n ih =>
      intro v hv
      have hv' : v ∈ bfsRound g B (bfsIter g B s n) := hv
      unfold bfsRound at hv'
      rcases List.mem_append.mp hv' with h1 | h1
      · exact ih v h1
      · rw [List.mem_dedup] at h1
        rcases List.mem_filter.mp h1 with ⟨h2, h3⟩
        simp only [decide_eq_true_eq] at h3
        rcases List.mem_flatMap.mp h2 with ⟨u, hu, hw⟩
        rcases List.mem_map.mp hw with ⟨p, hp, hpv⟩
        refine ReachAvoid.step (ih u hu) ⟨p.v2, ?_⟩ h3.2
        rw [← hpv]
        exact hp

theorem bfsIter_succ_mono (g : EmbGraph) (B : List Int) (s : Int) (n : Nat) :
    ∀ v ∈ bfsIter g B s n, v ∈ bfsIter g B s (n + 1) := by
  intro v hv
  show v ∈ bfsRound g B (bfsIter g B s n)
  unfold bfsRound
  exact List.mem_append_left _ hv

theorem bfsIter_mono (g : EmbGraph) (B : List Int) (s : Int) (m : Nat) :
    ∀ n : Nat, m ≤ n → ∀ v ∈ bfsIter g B s m, v ∈ bfsIter g B s n := by
  intro n
  induction n with
  | zero =>
      intro h v hv
      rw [Nat.le_zero.mp h] at hv
      exact hv
  | succ n ih =>
      intro h v hv
      by_cases hm : m = n + 1
      · rw [hm] at hv
        exact hv
      · exact bfsIter_succ_mono g B s n v (ih (by omega) v hv)

theorem bfsIter_nodup (g : EmbGraph) (B : List Int) (s : Int) :
    ∀ n : Nat, (bfsIter g B s n).Nodup := by
  intro n
  induction n with
  | zero => simp [bfsIter]
  | succ n ih =>
      show (bfsRound g B (bfsIter g B s n)).Nodup
      unfold bfsRound
      rw [List.nodup_append]
      refine ⟨ih, List.nodup_dedup _, fun a ha hb => ?_⟩
      rw [List.mem_dedup] at hb
      rcases List.mem_filter.mp hb with ⟨_, h3⟩
      simp only [decide_eq_true_eq] at h3
      exact h3.1 ha

theorem bfsIter_inrange (g : EmbGraph) (B : List Int) (s : Int) (hw : WFNbrs g)
    (h0 : 0 ≤ s) (hV : s < (g.V : Int)) :
    ∀ n : Nat, ∀ v ∈ bfsIter g B s n, 0 ≤ v ∧ v < (g.V : Int) := by
  intro n
  induction n with
  | zero =>
      intro v hv
      have hv' : v ∈ ([s] : List Int) := hv
      rw [List.mem_singleton] at hv'
      subst hv'
      exact ⟨h0, hV⟩
  | succ n ih =>
      intro v hv
      have hv' : v ∈ bfsRound g B (bfsIter g B s n) := hv
      unfold bfsRound at hv'
      rcases List.mem_append.mp hv' with h1 | h1
      · exact ih v h1
      · rw [List.mem_dedup] at h1
        rcases List.mem_filter.mp h1 with ⟨h2, _⟩
        rcases List.mem_flatMap.mp h2 with ⟨u, _, hw'⟩
        rcases List.mem_map.mp hw' with ⟨p, hp, hpv⟩
        rw [← hpv]
        exact hw u p hp

theorem bfsRound_ne_imp_length (g : EmbGraph) (B : List Int) (l : List Int)
    (h : bfsRound g B l ≠ l) : l.length + 1 ≤ (bfsRound g B l).length := by
  unfold bfsRound at *
  by_cases he : ((l.flatMap (fun u => (EmbGraph.neighbors g u).map (fun p => p.v1))).filter
      (fun w => ¬ w ∈ l ∧ ¬ w ∈ B)).dedup = []
  · rw [he, List.append_nil] at h
    exact absurd rfl h
  · rw [List.length_append]
    have := List.length_pos.mpr he
    omega

theorem bfsIter_growth (g : EmbGraph) (B : List Int) (s : Int) :
    ∀ n : Nat, (∀ k : Nat, k < n → bfsIter g B s (k + 1) ≠ bfsIter g B s k) →
      n + 1 ≤ (bfsIter g B s n).length := by
  intro n
  induction n with
  | zero => intro _; simp [bfsIter]
  | succ n ih =>
      intro h
      have h1 := ih (fun k hk => h k (Nat.lt_succ_of_lt hk))
      have h2 : bfsIter g B s (n + 1) ≠ bfsIter g B s n := h n (Nat.lt_succ_self n)
      have h4 := bfsRound_ne_imp_length g B (bfsIter g B s n) h2
      show n + 1 + 1 ≤ (bfsRound g B (bfsIter g B s n)).length
      omega

theorem bfs_fixpoint (g : EmbGraph) (B : List Int) (s : Int) (hw : WFNbrs g)
    (h0 : 0 ≤ s) (hV : s < (g.V : Int)) :
    ∃ k : Nat, k ≤ g.V ∧ bfsIter g B s (k + 1) = bfsIter g B s k := by
  by_contra hc
  push_neg at hc
  have h1 := bfsIter_growth g B s g.V (fun k hk => hc k (by omega))
  have h2 := length_le_of_nodup_range (bfsIter_nodup g B s g.V)
    (bfsIter_inrange g B s hw h0 hV g.V)
  omega

theorem bfsIter_fix_from (g : EmbGraph) (B : List Int) (s : Int) (k : Nat)
    (hfix : bfsIter g B s (k + 1) = bfsIter g B s k) :
    ∀ n : Nat, k ≤ n → bfsIter g B s n = bfsIter g B s k := by
  intro n
  induction n with
  | zero =>
      intro h
      rw [Nat.le_zero.mp h]
  | succ n ih =>
      intro h
      by_cases hk : k = n + 1
      · rw [hk]
      · have hkn : k ≤ n := by omega
        show bfsRound g B (bfsIter g B s n) = bfsIter g B s k
        rw [ih hkn]
        exact hfix

theorem bfsRound_fix_closed (g : EmbGraph) (B : List Int) (l : List Int)
    (hfix : bfsRound g B l = l) {u v : Int} (hu : u ∈ l) (he : edgeTo g u v)
    (hvB : ¬ v ∈ B) : v ∈ l := by
  by_cases hv : v ∈ l
  · exact hv
  · exfalso
    rcases he with ⟨c, hc⟩
    have h1 : v ∈ l.flatMap (fun u => (EmbGraph.neighbors g u).map (fun p => p.v1)) :=
      List.mem_flatMap.mpr ⟨u, hu, List.mem_map.mpr ⟨⟨v, c⟩, hc, rfl⟩⟩
    have h2 : v ∈ ((l.flatMap (fun u => (EmbGraph.neighbors g u).map (fun p => p.v1))).filter
        (fun w => ¬ w ∈ l ∧ ¬ w ∈ B)).dedup :=
      List.mem_dedup.mpr (List.mem_filter.mpr ⟨h1, by simp [hv, hvB]⟩)
    have h3 : v ∈ bfsRound g B l := by
      unfold bfsRound
      exact List.mem_append_right _ h2
    rw [hfix] at h3
    exact hv h3

theorem bfs_complete (g : EmbGraph) (B : List Int) (s : Int) (hw : WFNbrs g)
    (h0 : 0 ≤ s) (hV : s < (g.V : Int)) :
    ∀ v : Int, ReachAvoid g B s v → v ∈ bfsIter g B s g.V := by
  obtain ⟨k, hk, hfix⟩ := bfs_fixpoint g B s hw h0 hV
  intro v hv
  have hvk : v ∈ bfsIter g B s k := by
    induction hv with
    | refl h => exact bfsIter_mono g B s 0 k (Nat.zero_le k) s (by simp [bfsIter])
    | step hr he hB ih => exact bfsRound_fix_closed g B _ hfix ih he hB
  exact bfsIter_mono g B s k g.V hk v hvk

theorem bfsReachable_iff (g : EmbGraph) (B : List Int) (s t : Int) (hw : WFNbrs g)
    (h0 : 0 ≤ s) (hV : s < (g.V : Int)) :
    bfsReachable g B s t = true ↔ ReachAvoid g B s t := by
  unfold bfsReachable
  split_ifs with hs
  · constructor
    · intro h
      exact absurd h (by decide)
    · intro h
      exact absurd hs (ReachAvoid.source_not_banned h)
  · rw [decide_eq_true_eq]
    constructor
    · intro h
      exact bfs_sound g B s hs g.V t h
    · intro h
      exact bfs_complete g B s hw h0 hV t h

end HexGame
